import Mathlib

/-!
# smallsh: command loop and process stack

A shallow embedding of `src/Shell/commandLoop.c` and `src/Shell/stack.c`.

* Bytes are natural numbers, `0` is the string terminator.
* The line buffer filled by `getline` is a list of bytes (`Mem`); a `char*`
  into it is an offset, and the text of a token is the C string read at that
  offset.  `strcpy` and `sprintf` write bytes into the buffer, so that tokens
  which share the buffer can overwrite one another, as they do in C.  The
  size of the block that holds the buffer is the number `bfrsize` that
  `getline` reports.
* The `args` array is a list of optional offsets, `none` being `NULL`.
* The process stack is the list of the `val` fields from `top` downwards.
* Operations that C leaves undefined (a `NULL` passed to `strcpy`/`strcmp`, a
  read of `args` beyond what was initialised, a path longer than its 255-byte
  buffer, a store past the end of the block `toSearch` or of the block of the
  line) are reported as a `Fault`.
-/

namespace Smallsh

/-! ## Bytes, strings and the line buffer -/

/-- The line buffer: the bytes written so far into the block that `getline`
allocated, from its start. -/
abbrev Mem := List Nat

/-- The array `char** args`: pointers into the line buffer, `none` is `NULL`. -/
abbrev Args := List (Option Nat)

/-- The bytes of a string literal. -/
def bytes (s : String) : List Nat := s.data.map Char.toNat

/-- The C string that starts at offset `p`: the bytes up to the first `0`. -/
def cstr (mem : Mem) (p : Nat) : List Nat := (mem.drop p).takeWhile (fun b => b != 0)

/-- Store the bytes `bs` at offset `p` and the following offsets. -/
def poke (mem : Mem) (p : Nat) (bs : List Nat) : Mem :=
  mem.take p ++ List.replicate (p - mem.length) 0 ++ bs ++ mem.drop (p + bs.length)

/-- Model of `strcpy(dst, src)` inside the line buffer: the string at `src` is
read and then stored, with its terminator, at `dst`.  Where the two ranges
overlap the callers have `dst < src`, and a byte-by-byte copy from the front
gives this same result. -/
def strcpy (mem : Mem) (dst src : Nat) : Mem := poke mem dst (cstr mem src ++ [0])

deriving instance DecidableEq for Except

/-- What can go wrong where C gives no defined result. -/
inductive Fault where
  | nullDeref
  | pastEnd
  | pathOverflow
  | fuel
  deriving DecidableEq, Repr

/-! ## `getArgs` (commandLoop.c, lines 95-149) -/

/-- Model of `sprintf("%d", n)` for a non-negative `n`, most significant digit first;
`acc` holds the digits already produced. -/
def decimalAux : Nat → Nat → List Nat → List Nat
  | 0, _, acc => acc
  | fuel + 1, n, acc =>
    if n < 10 then (48 + n) :: acc
    else decimalAux fuel (n / 10) ((48 + n % 10) :: acc)

/-- The decimal digits that `%d` prints for the process id. -/
def decimal (n : Nat) : List Nat := decimalAux (n + 1) n []

/-- Model of `strstr(s, "$$")` on the bytes from the current position on: the distance
to the first place where two `$` (byte 36) follow one another before the
terminator. -/
def findDollars : List Nat → Option Nat
  | [] => none
  | b :: rest =>
    if b = 0 then none
    else if b = 36 ∧ rest.head? = some 36 then some 0
    else (findDollars rest).map (fun d => d + 1)

/-- Model of `strstr(ptr, "$$")` as an offset into the buffer. -/
def strstr (mem : Mem) (ptr : Nat) : Option Nat :=
  (findDollars (mem.drop ptr)).map (fun d => ptr + d)

/-- The size in bytes of the block `toSearch`, `malloc(sizeof(input))`:
`input` is a `char*`, so this is the size of a pointer. -/
def toSearchSize : Nat := 8

/-- One round of the loop of lines 108-114, `none` when `strstr` finds
nothing: `ptr = strstr(ptr, "$$"); strcpy(toSearch, ptr + 2);
sprintf(ptr, "%d%s", getpid(), toSearch); ptr += 2;`.
`digits` is what `%d` prints for `getpid()` and `bfrsize` is the size of the
block that `getline` allocated for the line.  `strcpy` stores the bytes
behind `$$` and their terminator in `toSearch`, and `sprintf` stores the
digits, those bytes and a terminator at `ptr`: a store that does not fit in
its block is a write past the end of the block.  Otherwise the result is the
buffer and the new `ptr`. -/
def expandStep (digits : List Nat) (bfrsize : Nat) (mem : Mem) (ptr : Nat) :
    Option (Except Fault (Mem × Nat)) :=
  match strstr mem ptr with
  | none => none
  | some m =>
    let toSearch := cstr mem (m + 2)
    if toSearchSize < toSearch.length + 1 then some (.error .pastEnd)
    else if bfrsize < m + digits.length + toSearch.length + 1 then some (.error .pastEnd)
    else some (.ok (poke mem m (digits ++ toSearch ++ [0]), m + 2))

/-- The loop of lines 108-114, `while (ptr = strstr(ptr, "$$")) { ... }`;
`none` only if the rounds allowed are used up. -/
def expandLoop (digits : List Nat) (bfrsize : Nat) : Nat → Mem → Nat → Option (Except Fault Mem)
  | 0, _, _ => none
  | fuel + 1, mem, ptr =>
    match expandStep digits bfrsize mem ptr with
    | none => some (.ok mem)
    | some (.error e) => some (.error e)
    | some (.ok (mem1, ptr1)) => expandLoop digits bfrsize fuel mem1 ptr1

/-- The buffer after the expansion loop: `input` holds the line and its
terminator in a block of `bfrsize` bytes, `ptr` starts at `input`.  The loop
is given one more round than the buffer has bytes. -/
def expandInput (pid bfrsize : Nat) (line : List Nat) : Option (Except Fault Mem) :=
  expandLoop (decimal pid) bfrsize (line.length + 2) (line ++ [0]) 0

/-- The expansion as the specification words it: from left to right every
non-overlapping `$$` is replaced by the digits and every other byte is kept. -/
def specExpand (digits : List Nat) : List Nat → List Nat
  | [] => []
  | [b] => [b]
  | a :: b :: rest =>
    if a = 36 ∧ b = 36 then digits ++ specExpand digits rest
    else a :: specExpand digits (b :: rest)

/-- The delimiters given to `strtok`: `" \n\t\a\r"`. -/
def isDelim (b : Nat) : Bool := b = 32 || b = 10 || b = 9 || b = 7 || b = 13

/-- Model of `strspn(s, delims)`. -/
def strspn : List Nat → Nat
  | [] => 0
  | b :: rest => if isDelim b then strspn rest + 1 else 0

/-- Model of `strcspn(s, delims)`, which also stops at the terminator. -/
def strcspn : List Nat → Nat
  | [] => 0
  | b :: rest => if b = 0 || isDelim b then 0 else strcspn rest + 1

/-- One call of `strtok` with the saved position `save`: skip delimiters; at
the terminator there is no token; otherwise the token runs to the next
delimiter, which is overwritten with `0`, or to the terminator.  The result
is the token, the buffer and the new saved position. -/
def strtok (mem : Mem) (save : Nat) : Option (Nat × Mem × Nat) :=
  let start := save + strspn (mem.drop save)
  if mem.getD start 0 = 0 then none
  else
    let stop := start + strcspn (mem.drop start)
    if mem.getD stop 0 = 0 then some (start, mem, stop)
    else some (start, mem.set stop 0, stop + 1)

/-- The loop of lines 125-141: `args[i] = arg; i++; arg = strtok(NULL, delims)`
until `strtok` returns `NULL`, then `args[i] = NULL`. -/
def tokLoop : Nat → Mem → Nat → Option (Mem × Args)
  | 0, _, _ => none
  | fuel + 1, mem, save =>
    match strtok mem save with
    | none => some (mem, [none])
    | some (tok, mem1, save1) =>
      match tokLoop fuel mem1 save1 with
      | none => none
      | some (mem2, args) => some (mem2, some tok :: args)

/-- Model of `getArgs`: `getline` has read `line` into a block of `bfrsize`
bytes (for a line of fewer than 120 bytes the `getline` of glibc allocates
120); the line has `$$` expanded, and unless the first byte is `#` (35) the
line is cut into tokens.  The result is the buffer and the `args` array up to
and including its `NULL`, or the fault of the expansion; `none` only if a
loop did not finish within its bound.  `getline` makes `bfrsize` greater than
the length of the line, so the array of `bfrsize` pointers allocated for
`args` has room for every token and the closing `NULL`. -/
def getArgs (pid bfrsize : Nat) (line : List Nat) : Option (Except Fault (Mem × Args)) :=
  match expandInput pid bfrsize line with
  | none => none
  | some (.error e) => some (.error e)
  | some (.ok mem) =>
    if mem.getD 0 0 != 35 then (tokLoop (mem.length + 1) mem 0).map .ok
    else some (.ok (mem, [none]))

/-- Model of `countArgs`: the index of the first `NULL`. -/
def countArgs : Args → Nat
  | [] => 0
  | none :: _ => 0
  | some _ :: rest => countArgs rest + 1

/-- The texts of the arguments in front of the first `NULL`. -/
def argv (mem : Mem) : Args → List (List Nat)
  | [] => []
  | none :: _ => []
  | some p :: rest => cstr mem p :: argv mem rest

/-! ## `checkIORedirection` (commandLoop.c, lines 397-458) -/

/-- One entry of `struct redirect results[2]`: the counter `status` and the
255-byte block `path`, `none` as long as nothing was copied into it. -/
structure redirect where
  status : Nat
  path : Option (List Nat)
  deriving DecidableEq, Repr

/-- The inner loop `while (args[k] != NULL) { strcpy(args[j], args[k]); j++; k++; }`.
It copies the text of each later token over the text of the token two places
before it and returns the buffer and the final `j`. -/
def shiftLoop : Nat → Mem → Args → Nat → Nat → Except Fault (Mem × Nat)
  | 0, _, _, _, _ => .error .fuel
  | fuel + 1, mem, args, j, k =>
    match args.get? k with
    | none => .error .pastEnd
    | some none => .ok (mem, j)
    | some (some src) =>
      match args.get? j with
      | none => .error .pastEnd
      | some none => .error .nullDeref
      | some (some dst) => shiftLoop fuel (strcpy mem dst src) args (j + 1) (k + 1)

/-- The body of either `if` of the scan, for the operator found at `args[i]`:
`status++; strcpy(path, args[i + 1]); j = i; k = i + 2;` the inner loop; then
`args[j] = NULL; args[j + 1] = NULL;`. -/
def redirectAt (mem : Mem) (args : Args) (i : Nat) (r : redirect) :
    Except Fault (Mem × Args × redirect) :=
  match args.get? (i + 1) with
  | none => .error .pastEnd
  | some none => .error .nullDeref
  | some (some p) =>
    let target := cstr mem p
    if 255 ≤ target.length then .error .pathOverflow
    else
      match shiftLoop (args.length + 1) mem args i (i + 2) with
      | .error e => .error e
      | .ok (mem1, j) =>
        .ok (mem1, (args.set j none).set (j + 1) none, ⟨r.status + 1, some target⟩)

/-- The scan `while (args[i] != NULL) { if "<" ...; if ">" ...; i++; }`.
Byte 60 is `<` and byte 62 is `>`. -/
def ioLoop : Nat → Mem → Args → Nat → redirect → redirect →
    Except Fault (Mem × Args × redirect × redirect)
  | 0, _, _, _, _, _ => .error .fuel
  | fuel + 1, mem, args, i, rin, rout =>
    match args.get? i with
    | none => .error .pastEnd
    | some none => .ok (mem, args, rin, rout)
    | some (some p) =>
      match (if cstr mem p = [60] then redirectAt mem args i rin
             else .ok (mem, args, rin)) with
      | .error e => .error e
      | .ok (mem1, args1, rin1) =>
        match (match args1.get? i with
               | some (some q) =>
                 if cstr mem1 q = [62] then redirectAt mem1 args1 i rout
                 else .ok (mem1, args1, rout)
               | _ => .ok (mem1, args1, rout)) with
        | .error e => .error e
        | .ok (mem2, args2, rout1) => ioLoop fuel mem2 args2 (i + 1) rin1 rout1

/-- Model of `checkIORedirection(args)`: both entries start with `status = 0` and an
unwritten `path`; the scan starts at `i = 0`.  The result is the buffer, the
`args` array and `results[0]` (input), `results[1]` (output). -/
def checkIORedirection (mem : Mem) (args : Args) :
    Except Fault (Mem × Args × redirect × redirect) :=
  ioLoop (args.length + 1) mem args 0 ⟨0, none⟩ ⟨0, none⟩

/-- What the caller sees after `checkIORedirection`: the texts of the
arguments left in `args`, and the target of each slot when its `status` is
not zero. -/
structure Resolved where
  tokens : List (List Nat)
  input : Option (List Nat)
  output : Option (List Nat)
  deriving DecidableEq, Repr

/-- The target of a slot as `execArgs` uses it: only when `status` is set. -/
def redirect.target (r : redirect) : Option (List Nat) :=
  if r.status = 0 then none else r.path

/-- Run `getArgs` on a line and `checkIORedirection` on its tokens. -/
def resolveLine (pid bfrsize : Nat) (line : List Nat) : Option (Except Fault Resolved) :=
  match getArgs pid bfrsize line with
  | none => none
  | some (.error e) => some (.error e)
  | some (.ok (mem, args)) =>
    match checkIORedirection mem args with
    | .error e => some (.error e)
    | .ok (mem1, args1, rin, rout) =>
      some (.ok ⟨argv mem1 args1, rin.target, rout.target⟩)

/-! ## The process stack (stack.c) -/

/-- Model of `pushStack`: a new node holding `val` becomes the top. -/
def pushStack (stack : List Int) (val : Int) : List Int := val :: stack

/-- The loop of `deleteFromStack`.  `pre` are the nodes in front of `ptr`,
the list argument the nodes from `ptr` on.
`if (ptr->val = val)` stores `val` in the node and tests the stored value;
when it is not zero, `if (ptr = stack->top)` moves `ptr` to the top node,
which exists, so `stack->top = ptr->next` unlinks the top node and the
function returns; when it is zero the node keeps the stored `0` and the
loop goes on to `ptr->next`. -/
def deleteLoop (val : Int) (pre : List Int) : List Int → List Int
  | [] => pre
  | _ :: rest =>
    if val ≠ 0 then (pre ++ val :: rest).tail
    else deleteLoop val (pre ++ [val]) rest

/-- Model of `deleteFromStack(stack, val)`: the loop starts with `ptr = stack->top`. -/
def deleteFromStack (stack : List Int) (val : Int) : List Int :=
  deleteLoop val [] stack

/-! ## Notices, wait statuses, descriptors and the shell state -/

/-- The lines the shell process prints. -/
inductive Notice where
  | exitValue (n : Int)
  | terminatedBySignal (n : Int)
  | cannotOpenInput (path : List Nat)
  | cannotOpenOutput (path : List Nat)
  | backgroundDone (pid code : Int)
  | forkUnsuccessful
  | enteringForegroundOnly
  | exitingForegroundOnly
  deriving DecidableEq, Repr

/-- Model of `WIFEXITED(stat)`: the low seven bits of the status are zero. -/
def WIFEXITED (stat : Int) : Bool := stat % 128 = 0

/-- Model of `WEXITSTATUS(stat)`: bits 8 to 15 of the status. -/
def WEXITSTATUS (stat : Int) : Int := (stat / 256) % 256

/-- Model of `WIFSIGNALED(stat)`: the low seven bits are neither zero (exited) nor
all set (stopped). -/
def WIFSIGNALED (stat : Int) : Bool := stat % 128 ≠ 0 && stat % 128 ≠ 127

/-- Model of `WTERMSIG(stat)`: the low seven bits of the status. -/
def WTERMSIG (stat : Int) : Int := stat % 128

/-- What a descriptor refers to. -/
inductive Stream where
  | stdin
  | stdout
  | stderr
  | devNull
  | file (path : List Nat)
  deriving DecidableEq, Repr

/-- The descriptor table of the shell process: entry `n` is descriptor `n`. -/
abbrev Fds := List (Option Stream)

/-- The lowest unused descriptor is made to refer to `s`. -/
def fdAlloc : Fds → Stream → Nat × Fds
  | [], s => (0, [some s])
  | none :: rest, s => (0, some s :: rest)
  | some t :: rest, s => ((fdAlloc rest s).1 + 1, some t :: (fdAlloc rest s).2)

/-- The stream of an open descriptor. -/
def fdGet (fds : Fds) (fd : Nat) : Option Stream := (fds.get? fd).join

/-- Entry `fd` of the table is replaced. -/
def fdSet (fds : Fds) (fd : Nat) (s : Option Stream) : Fds :=
  (fds ++ List.replicate (fd + 1 - fds.length) none).set fd s

/-- Model of `dup(fd)`: `none` is the result `-1`. -/
def dup (fds : Fds) (fd : Nat) : Option Nat × Fds :=
  match fdGet fds fd with
  | none => (none, fds)
  | some s => (some (fdAlloc fds s).1, (fdAlloc fds s).2)

/-- Model of `open(path, ...)`: `ok` tells whether the system opens the file. -/
def openFd (fds : Fds) (ok : Bool) (s : Stream) : Option Nat × Fds :=
  if ok then (some (fdAlloc fds s).1, (fdAlloc fds s).2) else (none, fds)

/-- Model of `dup2(old, new)`; nothing happens when `old` is not an open descriptor. -/
def dup2 (fds : Fds) (old : Option Nat) (new : Nat) : Fds :=
  match old with
  | none => fds
  | some o =>
    match fdGet fds o with
    | none => fds
    | some s => fdSet fds new (some s)

/-- Model of `close(fd)`. -/
def close (fds : Fds) (fd : Option Nat) : Fds :=
  match fd with
  | none => fds
  | some f => if f < fds.length then fds.set f none else fds

/-- The globals of commandLoop.c together with what the shell process has
printed, its descriptor table and the directory changes it asked for
(`none` stands for `getenv("HOME")`). -/
structure Shell where
  allowBG : Int
  lastCommandIsBG : Int
  lastCommandStatus : Int
  lastCommandSignal : Int
  processStack : List Int
  fds : Fds
  chdirs : List (Option (List Nat))
  out : List Notice
  deriving DecidableEq, Repr

/-- The state when `commandLoop` starts: `allowBG = 1`, the other integer
globals are zero-initialised, `initStack` gives an empty stack. -/
def Shell.init : Shell :=
  ⟨1, 0, 0, 0, [], [some .stdin, some .stdout, some .stderr], [], []⟩

/-! ## `checkOnChildren` (commandLoop.c, lines 463-484) -/

/-- The loop of `checkOnChildren`.  The list argument holds the nodes from
`ptr` on, as they were linked when the handler started: `ptr` is advanced
before `deleteFromStack` runs, and `deleteFromStack` with a positive value
unlinks only the top node, which `ptr` has already passed.
`wait v` is the answer to `waitpid(v, &stat, WNOHANG)` for a stored child
`v`: `none` when the call returns `0` or `-1`, otherwise the call returns `v`
and `stat` is the value given.  The stack holds results of `fork()` in the
parent, which are positive. -/
def checkLoop (wait : Int → Option Int) : List Int → Shell → Shell
  | [], sh => sh
  | v :: rest, sh =>
    match wait v with
    | none => checkLoop wait rest sh
    | some stat =>
      if 0 < v ∧ WIFEXITED stat then
        checkLoop wait rest
          { sh with out := sh.out ++ [.backgroundDone v (WEXITSTATUS stat)],
                    processStack := deleteFromStack sh.processStack v }
      else checkLoop wait rest sh

/-- Model of `checkOnChildren()`: the loop starts at `processStack->top`. -/
def checkOnChildren (wait : Int → Option Int) (sh : Shell) : Shell :=
  checkLoop wait sh.processStack sh

/-- Model of `toggleBG()`. -/
def toggleBG (sh : Shell) : Shell :=
  if sh.allowBG ≠ 0 then
    { sh with out := sh.out ++ [.enteringForegroundOnly], allowBG := 0 }
  else
    { sh with out := sh.out ++ [.exitingForegroundOnly], allowBG := 1 }

/-! ## `execArgs` and the built-ins (commandLoop.c, lines 167-392) -/

/-- The answers of the operating system during one call of `execArgs`, seen
from the shell process. -/
structure Os where
  /-- Does `open(path, O_RDONLY | O_CREAT, 0644)` succeed. -/
  openIn : List Nat → Bool
  /-- Does `open(path, O_APPEND | O_TRUNC | O_WRONLY | O_CREAT, 0644)` succeed. -/
  openOut : List Nat → Bool
  /-- Does `open("/dev/null", 0)` succeed. -/
  openNull : Bool
  /-- The value of `fork()`. -/
  fork : Int
  /-- The value of `stat` when the loop around `waitpid(newPid, &stat, 0)` ends. -/
  wait : Int

/-- How a call of `execArgs` ends. -/
inductive Outcome where
  /-- The call returns `value` to `commandLoop`. -/
  | ret (value : Int) (sh : Shell) (mem : Mem) (args : Args)
  /-- The built-in `exit` sent `SIGKILL` to `killed` and called `exit(code)`. -/
  | exit (code : Int) (killed : List Int)
  /-- The process is the new child (`fork()` gave `0`) and goes on to `execvp`. -/
  | child (sh : Shell) (mem : Mem) (args : Args)
  deriving DecidableEq, Repr

/-- Model of `shStatus`: one of two lines, chosen by the sentinel `-5`; returns `1`. -/
def shStatus (sh : Shell) : Shell :=
  if sh.lastCommandStatus ≠ -5 then
    { sh with out := sh.out ++ [.exitValue sh.lastCommandStatus] }
  else if sh.lastCommandSignal ≠ -5 then
    { sh with out := sh.out ++ [.terminatedBySignal sh.lastCommandSignal] }
  else sh

/-- Model of `shCd`: `chdir(getenv("HOME"))` when `args[1] == NULL`, else
`chdir(args[1])`; the result of `chdir` is not looked at; returns `1`. -/
def shCd (sh : Shell) (mem : Mem) (args : Args) : Except Fault Shell :=
  match args.get? 1 with
  | none => .error .pastEnd
  | some none => .ok { sh with chdirs := sh.chdirs ++ [none] }
  | some (some p) => .ok { sh with chdirs := sh.chdirs ++ [some (cstr mem p)] }

/-- Lines 173-182: `lastCommandIsBG = 0`, then
`if (strcmp(args[argc - 1], "&") == 0) { if (allowBG) lastCommandIsBG++;
 args[argc - 1] = NULL; argc--; }`.  Byte 38 is `&`. -/
def execArgsBackground (sh : Shell) (mem : Mem) (argc : Nat) (args : Args) :
    Except Fault (Shell × Nat × Args) :=
  match argc with
  | 0 => .error .pastEnd
  | n + 1 =>
    match args.get? n with
    | none => .error .pastEnd
    | some none => .error .nullDeref
    | some (some last) =>
      if cstr mem last = [38] then
        .ok ({ sh with lastCommandIsBG := if sh.allowBG ≠ 0 then 0 + 1 else 0 },
             n, args.set n none)
      else .ok ({ sh with lastCommandIsBG := 0 }, n + 1, args)

/-- Lines 307-311: what the shell records for the status of the foreground
child; `shStatus(NULL)` runs when the child was ended by signal 2. -/
def recordStatus (sh : Shell) (stat : Int) : Shell :=
  if WIFSIGNALED stat ∧ WTERMSIG stat = 2 then
    shStatus { sh with lastCommandSignal := 2, lastCommandStatus := -5 }
  else if WIFEXITED stat then
    { sh with lastCommandStatus := WEXITSTATUS stat, lastCommandSignal := -5 }
  else if WIFSIGNALED stat then
    { sh with lastCommandSignal := WTERMSIG stat, lastCommandStatus := -5 }
  else sh

/-- Lines 201-329: the command is not a built-in. -/
def execArgsExternal (os : Os) (sh : Shell) (mem : Mem) (args : Args) :
    Except Fault Outcome :=
  let stdIn := dup sh.fds 0
  let stdOut := dup stdIn.2 1
  let devNull := openFd stdOut.2 os.openNull .devNull
  match checkIORedirection mem args with
  | .error e => .error e
  | .ok (mem1, args1, rin, rout) =>
    let inPath := rin.path.getD []
    let outPath := rout.path.getD []
    let newIn := if rin.status ≠ 0 then openFd devNull.2 (os.openIn inPath) (.file inPath)
                 else (none, devNull.2)
    if rin.status ≠ 0 ∧ newIn.1 = none then
      .ok (.ret 1 { sh with fds := newIn.2, out := sh.out ++ [.cannotOpenInput inPath],
                            lastCommandStatus := 1, lastCommandSignal := -5 } mem1 args1)
    else
      let newOut := if rout.status ≠ 0 then openFd newIn.2 (os.openOut outPath) (.file outPath)
                    else (none, newIn.2)
      if rout.status ≠ 0 ∧ newOut.1 = none then
        .ok (.ret 1 { sh with fds := newOut.2, out := sh.out ++ [.cannotOpenOutput outPath],
                              lastCommandStatus := 1, lastCommandSignal := -5 } mem1 args1)
      else
        let fds1 := if rin.status ≠ 0 then dup2 newOut.2 newIn.1 0 else newOut.2
        let fds2 := if rout.status ≠ 0 then dup2 fds1 newOut.1 1 else fds1
        let sh1 : Shell := { sh with fds := fds2 }
        if os.fork = 0 then .ok (.child sh1 mem1 args1)
        else
          let sh2 : Shell :=
            if os.fork = -1 then { sh1 with out := sh1.out ++ [.forkUnsuccessful] }
            else
              let pushed : Shell :=
                { sh1 with processStack := pushStack sh1.processStack os.fork }
              if pushed.lastCommandIsBG = 0 then
                let waited := recordStatus pushed os.wait
                { waited with processStack := deleteFromStack waited.processStack os.fork }
              else pushed
          let fds3 := if rin.status ≠ 0 then close (dup2 sh2.fds stdIn.1 0) newIn.1 else sh2.fds
          let fds4 := if rout.status ≠ 0 then close (dup2 fds3 stdOut.1 1) newOut.1 else fds3
          .ok (.ret 1 { sh2 with fds := close fds4 devNull.1 } mem1 args1)

/-- Lines 186-329: `strcmp(args[0], builtinNames[i])` for `exit`, `cd`,
`status` in this order; the first match runs the built-in and returns its
value; without a match the command is external. -/
def execArgsDispatch (os : Os) (sh : Shell) (mem : Mem) (args : Args) :
    Except Fault Outcome :=
  match args.get? 0 with
  | none => .error .pastEnd
  | some none => .error .nullDeref
  | some (some cmd) =>
    if cstr mem cmd = bytes "exit" then .ok (.exit 0 sh.processStack)
    else if cstr mem cmd = bytes "cd" then
      match shCd sh mem args with
      | .error e => .error e
      | .ok sh1 => .ok (.ret 1 sh1 mem args)
    else if cstr mem cmd = bytes "status" then .ok (.ret 1 (shStatus sh) mem args)
    else execArgsExternal os sh mem args

/-- Model of `execArgs(argc, args)`: `if (args[0] == NULL) return 1;`, then
the handling of a trailing `&`, then the dispatch. -/
def execArgs (os : Os) (sh : Shell) (mem : Mem) (argc : Nat) (args : Args) :
    Except Fault Outcome :=
  match args.get? 0 with
  | none => .error .pastEnd
  | some none => .ok (.ret 1 sh mem args)
  | some (some _) =>
    match execArgsBackground sh mem argc args with
    | .error e => .error e
    | .ok (sh1, _, args1) => execArgsDispatch os sh1 mem args1

/-- One cycle of `commandLoop` after the prompt: `getArgs`, `countArgs`,
`execArgs`. -/
def dispatchLine (os : Os) (pid bfrsize : Nat) (sh : Shell) (line : List Nat) :
    Option (Except Fault Outcome) :=
  match getArgs pid bfrsize line with
  | none => none
  | some (.error e) => some (.error e)
  | some (.ok (mem, args)) => some (execArgs os sh mem (countArgs args) args)

/-- A comment line that holds `$$`, 77 bytes with its newline. -/
def commentWithPid : List Nat :=
  bytes "# the process id is $$, written here as a note for whoever reads this script\n"

/-! ## The states of the shell process -/

/-- The states in which the shell process can be between two prompts: the
state at the start of `commandLoop`, and from such a state the state after a
cycle of `commandLoop` whose `execArgs` returned, after a run of the `SIGTSTP`
handler `toggleBG`, and after a run of the `SIGCHLD` handler
`checkOnChildren`. -/
inductive Reachable : Shell → Prop where
  | init : Reachable Shell.init
  | dispatch (os : Os) (pid bfrsize : Nat) (line : List Nat) (sh sh1 : Shell) (v : Int)
      (mem : Mem) (args : Args) :
      Reachable sh →
      dispatchLine os pid bfrsize sh line = some (.ok (.ret v sh1 mem args)) →
      Reachable sh1
  | toggle (sh : Shell) : Reachable sh → Reachable (toggleBG sh)
  | children (wait : Int → Option Int) (sh : Shell) :
      Reachable sh → Reachable (checkOnChildren wait sh)

/-- Exactly one of the two globals differs from the sentinel `-5`. -/
def exactlyOneRecorded (sh : Shell) : Prop :=
  (sh.lastCommandStatus ≠ -5 ∧ sh.lastCommandSignal = -5) ∨
    (sh.lastCommandStatus = -5 ∧ sh.lastCommandSignal ≠ -5)

/-- The states in which the shell process can be later than in the state
`sh0`: `sh0` itself, and from such a state the state after a cycle of
`commandLoop` whose `execArgs` returned, after a run of `toggleBG`, and after
a run of `checkOnChildren`. -/
inductive ReachableFrom (sh0 : Shell) : Shell → Prop where
  | refl : ReachableFrom sh0 sh0
  | dispatch (os : Os) (pid bfrsize : Nat) (line : List Nat) (sh sh1 : Shell) (v : Int)
      (mem : Mem) (args : Args) :
      ReachableFrom sh0 sh →
      dispatchLine os pid bfrsize sh line = some (.ok (.ret v sh1 mem args)) →
      ReachableFrom sh0 sh1
  | toggle (sh : Shell) : ReachableFrom sh0 sh → ReachableFrom sh0 (toggleBG sh)
  | children (wait : Int → Option Int) (sh : Shell) :
      ReachableFrom sh0 sh → ReachableFrom sh0 (checkOnChildren wait sh)

end Smallsh

/-!
# buildrooms: the room graph

A shallow embedding of the graph functions of
`src/Adventure/hindss.buildrooms.c`.  A room number is an `int`; the array
`roomsVisited` and the `connections` of a room are lists whose empty slots
hold the sentinel `-1`; the stack of the search is the list of its values
from `top` downwards.
-/

namespace Buildrooms

/-- The fields of `struct Room` that the graph functions read:
`numConnections` and `int connections[6]`. -/
structure Room where
  numConnections : Int
  connections : List Int
  deriving DecidableEq, Repr

/-- An index outside its array, or a loop that did not end within its bound. -/
inductive Failure where
  | outOfBounds
  | fuel
  deriving DecidableEq, Repr

/-- The loop of `minConnEach`: the first room with fewer than `min`
connections makes the result 0. -/
def minConnLoop (min : Int) : List Room → Int
  | [] => 1
  | room :: rest => if room.numConnections < min then 0 else minConnLoop min rest

/-- Model of `minConnEach(roomArr, numRooms, min)`. -/
def minConnEach (roomArr : List Room) (numRooms : Nat) (min : Int) : Int :=
  minConnLoop min (roomArr.take numRooms)

/-- The counter `roomVisited` after
`for (i = 0; i < numRooms; i++) if (x == roomsVisited[i]) roomVisited++;`. -/
def timesVisited (roomsVisited : List Int) (x : Int) : Nat := roomsVisited.count x

/-- The loop of lines 436-446 without its `return`: the first slot that holds
`-1` receives `examine`; `none` when no slot holds `-1`. -/
def markRoom : List Int → Int → Option (List Int)
  | [], _ => none
  | x :: rest, examine =>
    if x = -1 then some (examine :: rest)
    else (markRoom rest examine).map (fun r => x :: r)

/-- The loop of lines 450-468 over the connections of the examined room: a
connection that is not `-1` and is in no slot of `roomsVisited` is pushed. -/
def pushNeighbors (roomsVisited : List Int) : List Int → List Int → List Int
  | [], stack => stack
  | c :: rest, stack =>
    if c ≠ -1 ∧ timesVisited roomsVisited c = 0 then
      pushNeighbors roomsVisited rest (c :: stack)
    else pushNeighbors roomsVisited rest stack

/-- The loop `while (stack->size > 0)` of `dfsReachesAll` and the computation
of `ret` behind it.  The arguments are the bound on the rounds, the stack and
`roomsVisited`. -/
def dfsLoop (roomGraph : List Room) (numRooms : Nat) :
    Nat → List Int → List Int → Except Failure Int
  | 0, _, _ => .error .fuel
  | _ + 1, [], roomsVisited => .ok (if (-1 : Int) ∈ roomsVisited then 0 else 1)
  | fuel + 1, examine :: stack, roomsVisited =>
    if timesVisited roomsVisited examine ≠ 0 then dfsLoop roomGraph numRooms fuel stack roomsVisited
    else
      let marked := (markRoom roomsVisited examine).getD roomsVisited
      if (markRoom roomsVisited examine).isSome ∧ marked.getD (numRooms - 1) (-1) ≠ -1 then .ok 1
      else if examine < 0 then .error .outOfBounds
      else
        match roomGraph.get? examine.toNat with
        | none => .error .outOfBounds
        | some room =>
          if room.connections.length < numRooms - 1 then .error .outOfBounds
          else
            dfsLoop roomGraph numRooms fuel
              (pushNeighbors marked (room.connections.take (numRooms - 1)) stack) marked

/-- Model of `dfsReachesAll(roomGraph, numRooms, begin)`: every slot of
`roomsVisited` starts as `-1` and the stack holds `begin`. -/
def dfsReachesAll (roomGraph : List Room) (numRooms : Nat) (begin : Int) :
    Except Failure Int :=
  dfsLoop roomGraph numRooms (numRooms * numRooms + 2) [begin] (List.replicate numRooms (-1))

/-- The test of line 286 in `connectRoomGraph`:
`dfsReachesAll(roomArr, numRooms, i) && minConnEach(roomArr, numRooms, 3)`. -/
def graphComplete (roomArr : List Room) (numRooms : Nat) (i : Int) : Except Failure Int :=
  match dfsReachesAll roomArr numRooms i with
  | .error e => .error e
  | .ok d => .ok (if d ≠ 0 ∧ minConnEach roomArr numRooms 3 ≠ 0 then 1 else 0)

/-- Room `c` can be reached from room `start` by following connection lists:
`start` itself, and every entry other than `-1` in the connections of a room
that can be reached. -/
inductive Reaches (roomGraph : List Room) (start : Int) : Int → Prop where
  | start : Reaches roomGraph start start
  | step (a c : Int) (room : Room) :
      Reaches roomGraph start a → 0 ≤ a → roomGraph.get? a.toNat = some room →
      c ∈ room.connections → c ≠ -1 → Reaches roomGraph start c

/-- The entries of a connection list that are connections (not `-1`). -/
def neighbors (room : Room) : List Int := room.connections.filter (fun c => c != -1)

/-- The connection list of room `i`. -/
def connectionsOf (roomGraph : List Room) (i : Nat) : List Int :=
  (roomGraph.getD i ⟨0, []⟩).connections

/-- An example: seven rooms in a row, room `i` connected with `i - 1` and
`i + 1`. -/
def rowOfRooms : List Room :=
  [⟨1, [1, -1, -1, -1, -1, -1]⟩, ⟨2, [0, 2, -1, -1, -1, -1]⟩, ⟨2, [1, 3, -1, -1, -1, -1]⟩,
   ⟨2, [2, 4, -1, -1, -1, -1]⟩, ⟨2, [3, 5, -1, -1, -1, -1]⟩, ⟨2, [4, 6, -1, -1, -1, -1]⟩,
   ⟨1, [5, -1, -1, -1, -1, -1]⟩]

/-- An example: seven rooms in a ring, room `i` connected with the two rooms
before it and the two rooms after it. -/
def ringOfRooms : List Room :=
  [⟨4, [1, 2, 5, 6, -1, -1]⟩, ⟨4, [0, 2, 3, 6, -1, -1]⟩, ⟨4, [0, 1, 3, 4, -1, -1]⟩,
   ⟨4, [1, 2, 4, 5, -1, -1]⟩, ⟨4, [2, 3, 5, 6, -1, -1]⟩, ⟨4, [0, 3, 4, 6, -1, -1]⟩,
   ⟨4, [0, 1, 4, 5, -1, -1]⟩]

end Buildrooms

namespace Smallsh

/-! ## Lemmas on the `args` array -/

theorem countArgs_get (args : Args) (n : Nat) (h : n < countArgs args) :
    ∃ p, args.get? n = some (some p) := by
  induction args generalizing n with
  | nil => simp [countArgs] at h
  | cons a rest ih =>
    cases a with
    | none => simp [countArgs] at h
    | some p =>
      cases n with
      | zero => exact ⟨p, rfl⟩
      | succ k =>
        simp only [countArgs] at h
        simpa using ih k (by omega)

theorem countArgs_set_last (args : Args) (h : 0 < countArgs args) :
    countArgs (args.set (countArgs args - 1) none) = countArgs args - 1 := by
  induction args with
  | nil => simp [countArgs] at h
  | cons a rest ih =>
    cases a with
    | none => simp [countArgs] at h
    | some p =>
      by_cases hr : 0 < countArgs rest
      · have e : countArgs rest + 1 - 1 = (countArgs rest - 1) + 1 := by omega
        simp only [countArgs, e, List.set_cons_succ, ih hr]
      · have e : countArgs rest = 0 := by omega
        simp [countArgs, e]

theorem argv_set_last (mem : Mem) (args : Args) (h : 0 < countArgs args) :
    argv mem (args.set (countArgs args - 1) none) = (argv mem args).dropLast := by
  induction args with
  | nil => simp [countArgs] at h
  | cons a rest ih =>
    cases a with
    | none => simp [countArgs] at h
    | some p =>
      by_cases hr : 0 < countArgs rest
      · have e : countArgs rest + 1 - 1 = (countArgs rest - 1) + 1 := by omega
        obtain ⟨q, hq⟩ := countArgs_get rest 0 hr
        have hne : argv mem rest ≠ [] := by
          cases rest with
          | nil => simp at hq
          | cons b r => 
            simp at hq
            subst hq
            simp [argv]
        simp only [countArgs, e, List.set_cons_succ, argv, ih hr]
        rw [List.dropLast_cons_of_ne_nil hne]
      · have e : countArgs rest = 0 := by omega
        have hr' : argv mem rest = [] := by
          cases rest with
          | nil => rfl
          | cons b r =>
            cases b with
            | none => rfl
            | some q => simp [countArgs] at e
        simp [countArgs, e, argv, hr']

/-! ## Lemmas on the expansion loop and on `strtok` -/

theorem decimalAux_mem (fuel n : Nat) (acc : List Nat) (d : Nat)
    (h : d ∈ decimalAux fuel n acc) : d ∈ acc ∨ (48 ≤ d ∧ d ≤ 57) := by
  induction fuel generalizing n acc with
  | zero => exact Or.inl h
  | succ f ih =>
    simp only [decimalAux] at h
    split at h
    · rcases List.mem_cons.mp h with h1 | h1
      · right; omega
      · exact Or.inl h1
    · rcases ih _ _ h with h1 | h1
      · rcases List.mem_cons.mp h1 with h2 | h2
        · right; omega
        · exact Or.inl h2
      · exact Or.inr h1

theorem decimal_digit (n d : Nat) (h : d ∈ decimal n) : 48 ≤ d ∧ d ≤ 57 := by
  rcases decimalAux_mem _ _ _ _ h with h1 | h1
  · simp at h1
  · exact h1

theorem decimal_ne_nil (n : Nat) : decimal n ≠ [] := by
  unfold decimal
  simp only [decimalAux]
  split
  · simp
  · intro h
    have : ∀ fuel m (acc : List Nat), acc ≠ [] → decimalAux fuel m acc ≠ [] := by
      intro fuel
      induction fuel with
      | zero => intro m acc ha; exact ha
      | succ f ih =>
        intro m acc ha
        simp only [decimalAux]
        split
        · simp
        · exact ih _ _ (by simp)
    exact this _ _ _ (by simp) h

theorem findDollars_some (l : List Nat) (d : Nat) (h : findDollars l = some d) :
    ∃ rest, l.drop d = 36 :: 36 :: rest := by
  induction l generalizing d with
  | nil => simp [findDollars] at h
  | cons b tl ih =>
    simp only [findDollars] at h
    split at h
    · simp at h
    · split at h
      · rename_i h36
        obtain ⟨hb, hh⟩ := h36
        simp only [Option.some.injEq] at h
        subst h
        cases tl with
        | nil => simp at hh
        | cons c tl2 =>
          simp only [List.head?_cons, Option.some.injEq] at hh
          subst hb; subst hh
          exact ⟨tl2, rfl⟩
      · cases hf : findDollars tl with
        | none => simp [hf] at h
        | some e =>
          simp only [hf, Option.map_some', Option.some.injEq] at h
          subst h
          simpa using ih e hf

theorem strstr_some (mem : Mem) (ptr m : Nat) (h : strstr mem ptr = some m) :
    ptr ≤ m ∧ ∃ rest, mem.drop m = 36 :: 36 :: rest := by
  unfold strstr at h
  cases hf : findDollars (mem.drop ptr) with
  | none => simp [hf] at h
  | some d =>
    simp only [hf, Option.map_some', Option.some.injEq] at h
    subst h
    refine ⟨by omega, ?_⟩
    obtain ⟨rest, hr⟩ := findDollars_some _ _ hf
    exact ⟨rest, by rw [← hr, List.drop_drop]⟩

theorem drop_eq_cons_length {α : Type} (l : List α) (m : Nat) (a : α) (rest : List α)
    (h : l.drop m = a :: rest) : m < l.length := by
  by_contra hc
  rw [List.drop_eq_nil_of_le (by omega)] at h
  cases h

theorem poke_drop (mem : Mem) (m : Nat) (bs : List Nat) (h : m ≤ mem.length) :
    (poke mem m bs).drop m = bs ++ mem.drop (m + bs.length) := by
  unfold poke
  have e : m - mem.length = 0 := by omega
  rw [e]
  simp only [List.replicate_zero, List.append_nil, List.append_assoc]
  rw [List.drop_append_of_le_length (by simp [h])]
  simp [List.drop_take]


theorem poke_take (mem : Mem) (m k : Nat) (bs : List Nat) (h : m ≤ mem.length) (hk : k ≤ m) :
    (poke mem m bs).take k = mem.take k := by
  unfold poke
  simp only [List.append_assoc]
  rw [List.take_append_of_le_length (by simp; omega)]
  rw [List.take_take]
  congr 1
  omega

theorem count_takeWhile_drop (p : Nat → Bool) (a : Nat) (l : List Nat) (k : Nat) :
    (l.takeWhile p).count a + (l.drop ((l.takeWhile p).length + k)).count a ≤ l.count a := by
  induction l with
  | nil => simp
  | cons x xs ih =>
    by_cases hx : p x = true
    · simp only [List.takeWhile_cons, hx, if_true, List.length_cons]
      have e : (List.takeWhile p xs).length + 1 + k = ((List.takeWhile p xs).length + k) + 1 := by
        omega
      rw [e, List.drop_succ_cons, List.count_cons, List.count_cons]
      omega
    · simp only [List.takeWhile_cons, hx, List.length_nil, List.count_nil, Nat.zero_add]
      simpa using (List.drop_sublist k (x :: xs)).count_le a

theorem count_drop_le (a : Nat) (l : List Nat) (i j : Nat) (h : i ≤ j) :
    (l.drop j).count a ≤ (l.drop i).count a := by
  have e : l.drop j = (l.drop i).drop (j - i) := by
    rw [List.drop_drop]; congr 1; omega
  rw [e]
  exact (List.drop_sublist _ _).count_le a

theorem expand_step_count (digits : List Nat) (mem : Mem) (ptr m : Nat)
    (hd : 36 ∉ digits) (hne : digits ≠ []) (h : strstr mem ptr = some m) :
    ((poke mem m (digits ++ cstr mem (m + 2) ++ [0])).drop (m + 2)).count 36 + 2 ≤
      (mem.drop ptr).count 36 := by
  obtain ⟨hle, rest, hrest⟩ := strstr_some mem ptr m h
  have hlen : m < mem.length := drop_eq_cons_length _ _ _ _ hrest
  have hrest2 : mem.drop (m + 2) = rest := by
    have : mem.drop (m + 2) = (mem.drop m).drop 2 := by rw [List.drop_drop]
    rw [this, hrest]; rfl
  have h1 := count_drop_le 36 (poke mem m (digits ++ cstr mem (m + 2) ++ [0])) m (m + 2) (by omega)
  rw [poke_drop _ _ _ (by omega)] at h1
  have h2 := count_drop_le 36 mem ptr m hle
  rw [hrest] at h2
  have hdl : 1 ≤ digits.length := by
    cases digits with
    | nil => exact absurd rfl hne
    | cons a t => simp
  have h3 := count_takeWhile_drop (fun b => b != 0) 36 rest (digits.length - 1)
  have hidx : mem.drop (m + (digits ++ cstr mem (m + 2) ++ [0]).length) =
      rest.drop ((rest.takeWhile (fun b => b != 0)).length + (digits.length - 1)) := by
    rw [← hrest2, List.drop_drop]
    simp only [cstr, List.length_append, List.length_cons, List.length_nil]
    congr 1
    omega
  rw [hidx] at h1
  have hc : (cstr mem (m + 2)).count 36 = (rest.takeWhile (fun b => b != 0)).count 36 := by
    simp only [cstr, hrest2]
  have hdc : digits.count 36 = 0 := List.count_eq_zero_of_not_mem hd
  have hz : List.count 36 [0] = 0 := by decide
  rw [List.count_append, List.count_append, List.count_append, hdc, hc, hz] at h1
  have h4 : (36 :: 36 :: rest).count 36 = rest.count 36 + 2 := by
    simp [List.count_cons]
  rw [h4] at h2
  omega

theorem expandLoop_isSome (digits : List Nat) (bfrsize : Nat) (hd : 36 ∉ digits)
    (hne : digits ≠ []) (fuel : Nat) (mem : Mem) (ptr : Nat)
    (h : (mem.drop ptr).count 36 < fuel) :
    ∃ r, expandLoop digits bfrsize fuel mem ptr = some r := by
  induction fuel generalizing mem ptr with
  | zero => omega
  | succ f ih =>
    simp only [expandLoop, expandStep]
    cases hs : strstr mem ptr with
    | none => exact ⟨.ok mem, rfl⟩
    | some m =>
      simp only
      split_ifs
      · exact ⟨_, rfl⟩
      · exact ⟨_, rfl⟩
      · apply ih
        have := expand_step_count digits mem ptr m hd hne hs
        omega

theorem expandLoop_take (digits : List Nat) (bfrsize fuel : Nat) (mem : Mem) (ptr : Nat)
    (r : Mem) (h : expandLoop digits bfrsize fuel mem ptr = some (.ok r)) (k : Nat)
    (hk : k ≤ ptr) :
    r.take k = mem.take k := by
  induction fuel generalizing mem ptr with
  | zero => simp [expandLoop] at h
  | succ f ih =>
    simp only [expandLoop, expandStep] at h
    cases hs : strstr mem ptr with
    | none =>
      simp only [hs, Option.some.injEq, Except.ok.injEq] at h
      rw [h]
    | some m =>
      simp only [hs] at h
      obtain ⟨hle, rest, hrest⟩ := strstr_some mem ptr m hs
      have hlen : m < mem.length := drop_eq_cons_length _ _ _ _ hrest
      split_ifs at h
      · cases h
      · cases h
      · rw [ih _ _ h (by omega)]
        exact poke_take _ _ _ _ (by omega) (by omega)

theorem expandInput_isSome (pid bfrsize : Nat) (line : List Nat) :
    ∃ r, expandInput pid bfrsize line = some r := by
  unfold expandInput
  apply expandLoop_isSome
  · intro h
    have := decimal_digit pid 36 h
    omega
  · exact decimal_ne_nil pid
  · have := List.count_le_length 36 ((line ++ [0]).drop 0)
    simp only [List.drop_zero, List.length_append, List.length_cons, List.length_nil] at this ⊢
    omega

theorem expandInput_comment (pid bfrsize : Nat) (tl : List Nat) (mem : Mem)
    (h : expandInput pid bfrsize (35 :: tl) = some (.ok mem)) : mem.getD 0 0 = 35 := by
  have key : mem.take 1 = [35] := by
    unfold expandInput at h
    rw [expandLoop] at h
    unfold expandStep at h
    cases hs : strstr (35 :: tl ++ [0]) 0 with
    | none =>
      simp only [hs, Option.some.injEq, Except.ok.injEq] at h
      rw [← h]; rfl
    | some m =>
      simp only [hs] at h
      obtain ⟨_, rest, hrest⟩ := strstr_some _ _ _ hs
      have hlen := drop_eq_cons_length _ _ _ _ hrest
      have hm : 1 ≤ m := by
        cases m with
        | zero => simp at hrest
        | succ k => omega
      split_ifs at h
      · cases h
      · cases h
      · rw [expandLoop_take _ _ _ _ _ _ h 1 (by omega), poke_take _ _ _ _ (by omega) hm]
        rfl
  cases mem with
  | nil => simp at key
  | cons b t =>
    simp only [List.take_succ_cons, List.take_zero, List.cons.injEq, and_true] at key
    simp [key]

theorem findDollars_delims (line : List Nat) (h : ∀ b ∈ line, isDelim b = true) :
    findDollars (line ++ [0]) = none := by
  induction line with
  | nil => simp [findDollars]
  | cons b tl ih =>
    have hb : isDelim b = true := h b (by simp)
    have hb0 : b ≠ 0 := by rintro rfl; simp [isDelim] at hb
    have hb36 : b ≠ 36 := by rintro rfl; simp [isDelim] at hb
    simp only [List.cons_append, findDollars, hb0, hb36, if_false, false_and, List.append_eq]
    rw [ih (fun c hc => h c (by simp [hc]))]
    rfl

theorem strspn_delims (line : List Nat) (h : ∀ b ∈ line, isDelim b = true) :
    strspn (line ++ [0]) = line.length := by
  induction line with
  | nil => simp [strspn, isDelim]
  | cons b tl ih =>
    have hb : isDelim b = true := h b (by simp)
    simp only [List.cons_append, strspn, hb, if_true, List.length_cons, List.append_eq]
    rw [ih (fun c hc => h c (by simp [hc]))]

theorem getArgs_blank (pid bfrsize : Nat) (line : List Nat)
    (h : ∀ b ∈ line, isDelim b = true) :
    getArgs pid bfrsize line = some (.ok (line ++ [0], [none])) := by
  have he : expandInput pid bfrsize line = some (.ok (line ++ [0])) := by
    unfold expandInput
    simp only [expandLoop, expandStep, strstr, List.drop_zero, findDollars_delims line h,
      Option.map_none']
  have hst : strtok (line ++ [0]) 0 = none := by
    unfold strtok
    simp only [List.drop_zero, strspn_delims line h, Nat.zero_add]
    simp
  unfold getArgs
  simp only [he, List.length_append, List.length_cons, List.length_nil, tokLoop, hst]
  split <;> rfl

/-- A line whose first byte is `#`, and a line made only of delimiters: the
loops of `getArgs` end, and unless the expansion of `$$` writes past the end
of a block the `args` array has `NULL` as its first entry and `execArgs` on
it returns 1 with the shell state as it was. -/
theorem getArgs_comment_or_blank (os : Os) (pid bfrsize : Nat) (sh : Shell) (line : List Nat)
    (h : line.head? = some 35 ∨ ∀ b ∈ line, isDelim b = true) :
    ∃ r, getArgs pid bfrsize line = some r ∧
      ∀ mem args, r = .ok (mem, args) →
        args = [none] ∧
          dispatchLine os pid bfrsize sh line = some (.ok (.ret 1 sh mem [none])) := by
  have hg : ∃ r, getArgs pid bfrsize line = some r ∧
      ∀ mem args, r = .ok (mem, args) → args = [none] := by
    rcases h with h | h
    · cases line with
      | nil => simp at h
      | cons b tl =>
        simp only [List.head?_cons, Option.some.injEq] at h
        subst h
        obtain ⟨r, hr⟩ := expandInput_isSome pid bfrsize (35 :: tl)
        cases r with
        | error e =>
          refine ⟨.error e, ?_, ?_⟩
          · unfold getArgs
            simp only [hr]
          · intro mem args hc
            cases hc
        | ok mem =>
          refine ⟨.ok (mem, [none]), ?_, ?_⟩
          · unfold getArgs
            simp only [hr]
            rw [expandInput_comment pid bfrsize tl mem hr]
            rfl
          · intro m a hc
            cases hc
            rfl
    · refine ⟨_, getArgs_blank pid bfrsize line h, ?_⟩
      intro m a hc
      cases hc
      rfl
  obtain ⟨r, hr, hargs⟩ := hg
  refine ⟨r, hr, ?_⟩
  intro mem args hc
  have ha := hargs mem args hc
  subst ha
  subst hc
  refine ⟨rfl, ?_⟩
  unfold dispatchLine
  simp only [hr]
  rfl

/-! ## What `deleteFromStack` does -/

theorem deleteFromStack_of_ne_zero (stack : List Int) (val : Int) (h : val ≠ 0) :
    deleteFromStack stack val = stack.tail := by
  cases stack with
  | nil => rfl
  | cons x rest => simp [deleteFromStack, deleteLoop, h]

theorem deleteLoop_zero (pre stack : List Int) :
    deleteLoop 0 pre stack = pre ++ stack.map (fun _ => 0) := by
  induction stack generalizing pre with
  | nil => simp [deleteLoop]
  | cons x rest ih => simp [deleteLoop, ih]

theorem deleteFromStack_zero (stack : List Int) :
    deleteFromStack stack 0 = stack.map (fun _ => 0) := by
  simp [deleteFromStack, deleteLoop_zero]

/-! ## The redirection scan on concrete command lines -/

/-- C1: on `tr a b > out < in` (seven tokens, two operator/path pairs) the
scan of `checkIORedirection` does not leave the three words `tr a b`: it
leaves five tokens, `tr a b < in`, and only the output target is set. -/
theorem checkIORedirection_leaves_second_pair :
    resolveLine 4242 120 (bytes "tr a b > out < in\n") =
      some (.ok ⟨[bytes "tr", bytes "a", bytes "b", bytes "<", bytes "in"],
                 none, some (bytes "out")⟩) := by
  decide

/-- C2: `wc < in.txt > out.txt` gives the tokens `wc`, input `in.txt` and
output `out.txt`, but with the operators in the other order,
`wc > out.txt < in.txt`, the tokens `<` and `in.txt` stay in the argument list
and no input target is set. -/
theorem checkIORedirection_order_matters :
    resolveLine 4242 120 (bytes "wc < in.txt > out.txt\n") =
        some (.ok ⟨[bytes "wc"], some (bytes "in.txt"), some (bytes "out.txt")⟩) ∧
      resolveLine 4242 120 (bytes "wc > out.txt < in.txt\n") =
        some (.ok ⟨[bytes "wc", bytes "<", bytes "in.txt"], none,
                   some (bytes "out.txt")⟩) := by
  decide

/-- C3: with two `<` (or two `>`) in a row of pairs, as in `cmd < a < b` and
`cmd > a > b`, the target reported is the path after the first operator, and
the second operator and its path stay in the argument list. -/
theorem checkIORedirection_repeated_operator :
    resolveLine 4242 120 (bytes "cmd < a < b\n") =
        some (.ok ⟨[bytes "cmd", bytes "<", bytes "b"], some (bytes "a"), none⟩) ∧
      resolveLine 4242 120 (bytes "cmd > a > b\n") =
        some (.ok ⟨[bytes "cmd", bytes ">", bytes "b"], none, some (bytes "a")⟩) := by
  decide

/-- C4: for the line `ls >`, whose last token is an operator,
`checkIORedirection` passes the `NULL` that ends `args` to `strcpy`, and so
the dispatch of that line ends in this fault whatever the shell state and the
answers of the system are: it does not return to the loop. -/
theorem dispatch_operator_without_path (os : Os) (sh : Shell) :
    resolveLine 4242 120 (bytes "ls >\n") = some (.error .nullDeref) ∧
      dispatchLine os 4242 120 sh (bytes "ls >\n") = some (.error .nullDeref) := by
  constructor <;> rfl

/-! ## The expansion of `$$` on a concrete line -/

/-- C5: for the process id 1 and the line `echo $$$$` the loop of `getArgs`
replaces only the first `$$`: the line becomes `echo 1$$`, whereas replacing
every occurrence gives `echo 11`. -/
theorem expand_single_digit_pid :
    (expandInput 1 120 (bytes "echo $$$$\n")).map (fun r => r.map (fun mem => cstr mem 0)) =
        some (.ok (bytes "echo 1$$\n")) ∧
      specExpand (decimal 1) (bytes "echo $$$$\n") = bytes "echo 11\n" := by
  decide

/-! ## The process stack on concrete registries -/

/-- C7: `deleteFromStack` with the value 7, which the stack `5, 9` does not
hold, unlinks the top node 5. -/
theorem deleteFromStack_absent_value : deleteFromStack [5, 9] 7 = [9] := by
  decide

/-- C8: `deleteFromStack` with the value 9 on the stack `5, 9` (9 below the
top) unlinks the top node 5 and leaves the node holding 9. -/
theorem deleteFromStack_below_top : deleteFromStack [5, 9] 9 = [9] := by
  decide

/-- C9: with the registry `5, 9`, child 9 reported as exited with code 0 and
child 5 still running, `checkOnChildren` announces 9 but afterwards the
registry holds 9 and no longer holds 5. -/
theorem checkOnChildren_drops_live_child :
    checkOnChildren (fun v => if v = 9 then some 0 else none)
        { Shell.init with processStack := [5, 9] } =
      { Shell.init with processStack := [9], out := [.backgroundDone 9 0] } := by
  decide


/-! ## Comment lines and blank lines -/

/-- C6: for the comment line
`# the process id is $$, written here as a note for whoever reads this script`
(77 bytes with its newline, in a block of 120 bytes) `getArgs` copies the 55
bytes behind `$$` and their terminator into `toSearch`, a block of
`sizeof(input)` = 8 bytes, before it tests the first byte for `#`: the copy
writes past the end of that block, and the cycle ends in this fault whatever
the shell state and the answers of the system are; it is not a cycle that
gives zero tokens and returns 1. -/
theorem comment_line_overflows_toSearch (os : Os) (sh : Shell) :
    commentWithPid.head? = some 35 ∧ commentWithPid.length = 77 ∧
      strstr (commentWithPid ++ [0]) 0 = some 20 ∧
      (cstr (commentWithPid ++ [0]) 22).length = 55 ∧ toSearchSize = 8 ∧
      getArgs 4242 120 commentWithPid = some (.error .pastEnd) ∧
      dispatchLine os 4242 120 sh commentWithPid = some (.error .pastEnd) := by
  refine ⟨by decide, by decide, by decide, by decide, rfl, by decide, rfl⟩

/-! ## The trailing `&` -/

/-- C10: for a non-empty argument list, if the text of the last argument is
`&`, `execArgs` puts `NULL` in its place and lowers the count by one whatever
`allowBG` is (the arguments left are the former ones without the last), sets
`lastCommandIsBG` to 1 when `allowBG` is not zero and to 0 otherwise, and
dispatches the command on that list and flag; if the last argument is
anything else, the list and the count stay as they are, `lastCommandIsBG` is
0, and the command is dispatched on the unchanged list. -/
theorem execArgs_background_marker (os : Os) (sh : Shell) (mem : Mem) (args : Args)
    (h : 0 < countArgs args) :
    ∃ last, args.get? (countArgs args - 1) = some (some last) ∧
      (cstr mem last = [38] →
        execArgsBackground sh mem (countArgs args) args =
            .ok ({ sh with lastCommandIsBG := if sh.allowBG ≠ 0 then 1 else 0 },
                 countArgs args - 1, args.set (countArgs args - 1) none) ∧
          countArgs (args.set (countArgs args - 1) none) = countArgs args - 1 ∧
          argv mem (args.set (countArgs args - 1) none) = (argv mem args).dropLast ∧
          execArgs os sh mem (countArgs args) args =
            execArgsDispatch os { sh with lastCommandIsBG := if sh.allowBG ≠ 0 then 1 else 0 }
              mem (args.set (countArgs args - 1) none)) ∧
      (cstr mem last ≠ [38] →
        execArgsBackground sh mem (countArgs args) args =
            .ok ({ sh with lastCommandIsBG := 0 }, countArgs args, args) ∧
          execArgs os sh mem (countArgs args) args =
            execArgsDispatch os { sh with lastCommandIsBG := 0 } mem args) := by
  obtain ⟨last, hlast⟩ := countArgs_get args (countArgs args - 1) (by omega)
  obtain ⟨first, hfirst⟩ := countArgs_get args 0 h
  obtain ⟨n, hn⟩ : ∃ n, countArgs args = n + 1 := ⟨countArgs args - 1, by omega⟩
  refine ⟨last, hlast, ?_, ?_⟩
  · intro hamp
    have hstage : execArgsBackground sh mem (countArgs args) args =
        .ok ({ sh with lastCommandIsBG := if sh.allowBG ≠ 0 then 1 else 0 },
             countArgs args - 1, args.set (countArgs args - 1) none) := by
      rw [hn] at hlast ⊢
      simp only [Nat.add_sub_cancel] at hlast ⊢
      simp only [execArgsBackground, hlast, hamp, if_true]
      simp
    refine ⟨hstage, countArgs_set_last args h, argv_set_last mem args h, ?_⟩
    simp only [execArgs, hfirst, hstage]
  · intro hamp
    have hstage : execArgsBackground sh mem (countArgs args) args =
        .ok ({ sh with lastCommandIsBG := 0 }, countArgs args, args) := by
      rw [hn] at hlast ⊢
      simp only [Nat.add_sub_cancel] at hlast
      simp only [execArgsBackground, hlast, hamp, if_false]
    refine ⟨hstage, ?_⟩
    simp only [execArgs, hfirst, hstage]

theorem execArgs_background_marker_witness :
    ∃ last, [some 0, some 3, none].get? (countArgs [some 0, some 3, none] - 1) =
        some (some last) ∧
      (cstr [108, 115, 0, 38, 0, 0] last = [38] →
        execArgsBackground Shell.init [108, 115, 0, 38, 0, 0]
            (countArgs [some 0, some 3, none]) [some 0, some 3, none] =
            .ok ({ Shell.init with
                     lastCommandIsBG := if Shell.init.allowBG ≠ 0 then 1 else 0 },
                 countArgs [some 0, some 3, none] - 1,
                 [some 0, some 3, none].set (countArgs [some 0, some 3, none] - 1) none) ∧
          countArgs ([some 0, some 3, none].set (countArgs [some 0, some 3, none] - 1) none) =
            countArgs [some 0, some 3, none] - 1 ∧
          argv [108, 115, 0, 38, 0, 0]
              ([some 0, some 3, none].set (countArgs [some 0, some 3, none] - 1) none) =
            (argv [108, 115, 0, 38, 0, 0] [some 0, some 3, none]).dropLast ∧
          execArgs ⟨fun _ => true, fun _ => true, true, 100, 0⟩ Shell.init
              [108, 115, 0, 38, 0, 0] (countArgs [some 0, some 3, none])
              [some 0, some 3, none] =
            execArgsDispatch ⟨fun _ => true, fun _ => true, true, 100, 0⟩
              { Shell.init with
                  lastCommandIsBG := if Shell.init.allowBG ≠ 0 then 1 else 0 }
              [108, 115, 0, 38, 0, 0]
              ([some 0, some 3, none].set (countArgs [some 0, some 3, none] - 1) none)) ∧
      (cstr [108, 115, 0, 38, 0, 0] last ≠ [38] →
        execArgsBackground Shell.init [108, 115, 0, 38, 0, 0]
            (countArgs [some 0, some 3, none]) [some 0, some 3, none] =
            .ok ({ Shell.init with lastCommandIsBG := 0 },
                 countArgs [some 0, some 3, none], [some 0, some 3, none]) ∧
          execArgs ⟨fun _ => true, fun _ => true, true, 100, 0⟩ Shell.init
              [108, 115, 0, 38, 0, 0] (countArgs [some 0, some 3, none])
              [some 0, some 3, none] =
            execArgsDispatch ⟨fun _ => true, fun _ => true, true, 100, 0⟩
              { Shell.init with lastCommandIsBG := 0 } [108, 115, 0, 38, 0, 0]
              [some 0, some 3, none]) :=
  execArgs_background_marker ⟨fun _ => true, fun _ => true, true, 100, 0⟩ Shell.init
    [108, 115, 0, 38, 0, 0] [some 0, some 3, none] (by decide)

/-! ## Lemmas on the shell state and the descriptor table -/

theorem shStatus_frame (sh : Shell) :
    (shStatus sh).allowBG = sh.allowBG ∧ (shStatus sh).lastCommandIsBG = sh.lastCommandIsBG ∧
      (shStatus sh).lastCommandStatus = sh.lastCommandStatus ∧
      (shStatus sh).lastCommandSignal = sh.lastCommandSignal ∧
      (shStatus sh).processStack = sh.processStack ∧ (shStatus sh).fds = sh.fds ∧
      (shStatus sh).chdirs = sh.chdirs := by
  unfold shStatus
  split_ifs <;> simp

theorem recordStatus_frame (sh : Shell) (stat : Int) :
    (recordStatus sh stat).allowBG = sh.allowBG ∧
      (recordStatus sh stat).lastCommandIsBG = sh.lastCommandIsBG ∧
      (recordStatus sh stat).processStack = sh.processStack ∧
      (recordStatus sh stat).fds = sh.fds ∧ (recordStatus sh stat).chdirs = sh.chdirs := by
  unfold recordStatus
  split_ifs <;> simp [shStatus_frame]

/-- what the two globals are after `recordStatus` -/
theorem recordStatus_status (sh : Shell) (stat : Int) :
    ((recordStatus sh stat).lastCommandStatus = sh.lastCommandStatus ∧
        (recordStatus sh stat).lastCommandSignal = sh.lastCommandSignal) ∨
      exactlyOneRecorded (recordStatus sh stat) := by
  unfold recordStatus
  split_ifs with h1 h2 h3
  · right
    right
    simp [shStatus_frame]
  · right
    left
    simp only [WEXITSTATUS]
    refine ⟨?_, trivial⟩
    have := Int.emod_nonneg (stat / 256) (show (256 : Int) ≠ 0 by decide)
    omega
  · right
    right
    simp only [WTERMSIG]
    refine ⟨trivial, ?_⟩
    have := Int.emod_nonneg stat (show (128 : Int) ≠ 0 by decide)
    omega
  · left
    exact ⟨rfl, rfl⟩


theorem fdGet_fdSet (fds : Fds) (i j : Nat) (x : Option Stream) :
    fdGet (fdSet fds i x) j = if j = i then x else fdGet fds j := by
  unfold fdGet fdSet
  simp only [List.get?_eq_getElem?]
  by_cases h : j = i
  · subst h
    simp only [if_true]
    rw [List.getElem?_set_self (by simp; omega)]
    rfl
  · simp only [h, if_false]
    rw [List.getElem?_set_ne (by omega)]
    by_cases hj : j < fds.length
    · rw [List.getElem?_append_left hj]
    · rw [List.getElem?_append_right (by omega)]
      rw [List.getElem?_eq_none (show fds.length ≤ j by omega)]
      by_cases hj2 : j - fds.length < i + 1 - fds.length
      · rw [List.getElem?_replicate_of_lt hj2]
        rfl
      · rw [List.getElem?_eq_none (by simp; omega)]

theorem fdGet_dup2_ne (fds : Fds) (old : Option Nat) (n j : Nat) (h : j ≠ n) :
    fdGet (dup2 fds old n) j = fdGet fds j := by
  unfold dup2
  cases old with
  | none => rfl
  | some o =>
    simp only
    cases fdGet fds o with
    | none => rfl
    | some s => simp only [fdGet_fdSet, h, if_false]

theorem fdGet_dup2_self (fds : Fds) (o n : Nat) (s : Stream) (h : fdGet fds o = some s) :
    fdGet (dup2 fds (some o) n) n = some s := by
  unfold dup2
  simp only [h, fdGet_fdSet, if_true]

theorem fdGet_close_ne (fds : Fds) (fd : Option Nat) (j : Nat) (h : fd ≠ some j) :
    fdGet (close fds fd) j = fdGet fds j := by
  unfold close
  cases fd with
  | none => rfl
  | some f =>
    have hf : j ≠ f := fun e => h (by rw [e])
    simp only
    split_ifs with hlt
    · unfold fdGet
      simp only [List.get?_eq_getElem?]
      rw [List.getElem?_set_ne (by omega)]
    · rfl

theorem fdAlloc_spec (fds : Fds) (t : Stream) :
    fdGet fds (fdAlloc fds t).1 = none ∧ fdGet (fdAlloc fds t).2 (fdAlloc fds t).1 = some t ∧
      ∀ j, j ≠ (fdAlloc fds t).1 → fdGet (fdAlloc fds t).2 j = fdGet fds j := by
  induction fds with
  | nil =>
    refine ⟨rfl, rfl, ?_⟩
    intro j hj
    simp only [fdAlloc] at hj ⊢
    cases j with
    | zero => exact absurd rfl hj
    | succ k => rfl
  | cons x rest ih =>
    cases x with
    | none =>
      refine ⟨rfl, rfl, ?_⟩
      intro j hj
      simp only [fdAlloc] at hj ⊢
      cases j with
      | zero => exact absurd rfl hj
      | succ k => rfl
    | some u =>
      obtain ⟨h1, h2, h3⟩ := ih
      refine ⟨h1, h2, ?_⟩
      intro j hj
      simp only [fdAlloc] at hj ⊢
      cases j with
      | zero => rfl
      | succ k => exact h3 k (by omega)


theorem fdGet_ne {fds : Fds} {i j : Nat} {s : Stream} (hopen : fdGet fds i = some s)
    (hfree : fdGet fds j = none) : j ≠ i := by
  intro e
  rw [e, hopen] at hfree
  cases hfree

theorem openFd_spec (c : Prop) [Decidable c] (fds : Fds) (ok : Bool) (t : Stream) :
    (∀ j s, fdGet fds j = some s →
        fdGet (if c then openFd fds ok t else (none, fds)).2 j = some s) ∧
      ∀ d, (if c then openFd fds ok t else (none, fds)).1 = some d → fdGet fds d = none := by
  obtain ⟨a1, a2, a3⟩ := fdAlloc_spec fds t
  by_cases hc : c
  · simp only [hc, if_true]
    unfold openFd
    cases ok with
    | false => simp
    | true =>
      simp only [if_true]
      refine ⟨?_, ?_⟩
      · intro j s hj
        rw [a3 j ?_]
        · exact hj
        · intro e
          rw [e, a1] at hj
          cases hj
      · intro d hd
        simp only [Option.some.injEq] at hd
        rw [← hd]
        exact a1
  · simp only [hc, if_false]
    exact ⟨fun _ _ h => h, fun d hd => by cases hd⟩

theorem dup_spec (fds : Fds) (i : Nat) (s : Stream) (h : fdGet fds i = some s) :
    ∃ n, (dup fds i).1 = some n ∧ fdGet fds n = none ∧ fdGet (dup fds i).2 n = some s ∧
      ∀ j u, fdGet fds j = some u → fdGet (dup fds i).2 j = some u := by
  obtain ⟨a1, a2, a3⟩ := fdAlloc_spec fds s
  unfold dup
  simp only [h]
  refine ⟨_, rfl, a1, a2, ?_⟩
  intro j u hj
  rw [a3 j ?_]
  · exact hj
  · intro e
    rw [e, a1] at hj
    cases hj

theorem execArgsExternal_fds (os : Os) (sh sh1 : Shell) (mem m : Mem) (args a : Args)
    (v : Int) (s0 s1 : Stream) (h0 : fdGet sh.fds 0 = some s0) (h1 : fdGet sh.fds 1 = some s1)
    (h : execArgsExternal os sh mem args = .ok (.ret v sh1 m a)) :
    fdGet sh1.fds 0 = some s0 ∧ fdGet sh1.fds 1 = some s1 := by
  unfold execArgsExternal at h
  lift_lets at h
  extract_lets stdIn stdOut devNull at h
  obtain ⟨ia, hia, fa, ga, ea⟩ := dup_spec sh.fds 0 s0 h0
  obtain ⟨ib, hib, fb, gb, eb⟩ := dup_spec stdIn.2 1 s1 (ea 1 s1 h1)
  obtain ⟨ec, fc⟩ := openFd_spec True stdOut.2 os.openNull Stream.devNull
  simp only [if_true] at ec fc
  cases hio : checkIORedirection mem args with
  | error e => rw [hio] at h; cases h
  | ok r =>
    obtain ⟨mem1, args1, rin, rout⟩ := r
    rw [hio] at h
    simp -zeta only at h
    lift_lets at h
    beta_reduce at h
    lift_lets at h
    extract_lets inPath newIn outPath newOut fds1 fds2 sh1' pushed waited sh2 fds3 fds4 at h
    obtain ⟨ed, fd⟩ := openFd_spec (rin.status ≠ 0) devNull.2 (os.openIn inPath)
      (Stream.file inPath)
    obtain ⟨ee, fe⟩ := openFd_spec (rout.status ≠ 0) newIn.2 (os.openOut outPath)
      (Stream.file outPath)
    -- the four descriptors in the table after all the opens
    have k0 : fdGet newOut.2 0 = some s0 := ee _ _ (ed _ _ (ec _ _ (eb _ _ (ea _ _ h0))))
    have k1 : fdGet newOut.2 1 = some s1 := ee _ _ (ed _ _ (ec _ _ (eb _ _ (ea _ _ h1))))
    have ka : fdGet newOut.2 ia = some s0 := ee _ _ (ed _ _ (ec _ _ (eb _ _ ga)))
    have kb : fdGet newOut.2 ib = some s1 := ee _ _ (ed _ _ (ec _ _ gb))
    split_ifs at h with c1 c2 c3
    · simp only [Except.ok.injEq, Outcome.ret.injEq] at h
      obtain ⟨-, rfl, -, -⟩ := h
      exact ⟨ed _ _ (ec _ _ (eb _ _ (ea _ _ h0))), ed _ _ (ec _ _ (eb _ _ (ea _ _ h1)))⟩
    · simp only [Except.ok.injEq, Outcome.ret.injEq] at h
      obtain ⟨-, rfl, -, -⟩ := h
      exact ⟨k0, k1⟩
    · simp at h
    · simp only [Except.ok.injEq, Outcome.ret.injEq] at h
      obtain ⟨-, rfl, -, -⟩ := h
      show fdGet (close fds4 devNull.1) 0 = some s0 ∧ fdGet (close fds4 devNull.1) 1 = some s1
      -- none of the descriptors handed out is 0 or 1, and they are distinct from the saved ones
      have na : ia ≠ 0 ∧ ia ≠ 1 := ⟨fdGet_ne h0 fa, fdGet_ne h1 fa⟩
      have nb : ib ≠ 0 ∧ ib ≠ 1 := ⟨fdGet_ne (ea _ _ h0) fb, fdGet_ne (ea _ _ h1) fb⟩
      have nc : devNull.1 ≠ some 0 ∧ devNull.1 ≠ some 1 :=
        ⟨fun e => fdGet_ne (eb _ _ (ea _ _ h0)) (fc _ e) rfl,
          fun e => fdGet_ne (eb _ _ (ea _ _ h1)) (fc _ e) rfl⟩
      have nd : newIn.1 ≠ some 0 ∧ newIn.1 ≠ some 1 ∧ newIn.1 ≠ some ib :=
        ⟨fun e => fdGet_ne (ec _ _ (eb _ _ (ea _ _ h0))) (fd _ e) rfl,
          fun e => fdGet_ne (ec _ _ (eb _ _ (ea _ _ h1))) (fd _ e) rfl,
          fun e => fdGet_ne (ec _ _ gb) (fd _ e) rfl⟩
      have ne : newOut.1 ≠ some 0 ∧ newOut.1 ≠ some 1 :=
        ⟨fun e => fdGet_ne (ed _ _ (ec _ _ (eb _ _ (ea _ _ h0)))) (fe _ e) rfl,
          fun e => fdGet_ne (ed _ _ (ec _ _ (eb _ _ (ea _ _ h1)))) (fe _ e) rfl⟩
      -- the table while the command runs
      have hsh2 : sh2.fds = fds2 := by
        by_cases f1 : os.fork = -1
        · have e : sh2 = { sh1' with out := sh1'.out ++ [.forkUnsuccessful] } := if_pos f1
          rw [e]
        · by_cases b0 : pushed.lastCommandIsBG = 0
          · have e : sh2 =
                { waited with processStack := deleteFromStack waited.processStack os.fork } :=
              (if_neg f1).trans (if_pos b0)
            rw [e]
            exact (recordStatus_frame pushed os.wait).2.2.2.1
          · have e : sh2 = pushed := (if_neg f1).trans (if_neg b0)
            rw [e]
      have j1 : ∀ j, j ≠ 0 → fdGet fds1 j = fdGet newOut.2 j := by
        intro j hj
        show fdGet (if rin.status ≠ 0 then dup2 newOut.2 newIn.1 0 else newOut.2) j = _
        split_ifs
        · exact fdGet_dup2_ne _ _ _ _ hj
        · rfl
      have j2 : ∀ j, j ≠ 1 → fdGet fds2 j = fdGet fds1 j := by
        intro j hj
        show fdGet (if rout.status ≠ 0 then dup2 fds1 newOut.1 1 else fds1) j = _
        split_ifs
        · exact fdGet_dup2_ne _ _ _ _ hj
        · rfl
      have pa : fdGet fds2 ia = some s0 := by rw [j2 _ na.2, j1 _ na.1]; exact ka
      have pb : fdGet fds2 ib = some s1 := by rw [j2 _ nb.2, j1 _ nb.1]; exact kb
      have t : fdGet fds3 0 = some s0 ∧ fdGet fds3 ib = some s1 ∧
          (rout.status = 0 → fdGet fds3 1 = some s1) := by
        show fdGet (if rin.status ≠ 0 then close (dup2 sh2.fds stdIn.1 0) newIn.1
            else sh2.fds) 0 = some s0 ∧
          fdGet (if rin.status ≠ 0 then close (dup2 sh2.fds stdIn.1 0) newIn.1
            else sh2.fds) ib = some s1 ∧
          (rout.status = 0 → fdGet (if rin.status ≠ 0 then close (dup2 sh2.fds stdIn.1 0) newIn.1
            else sh2.fds) 1 = some s1)
        rw [hsh2, hia]
        have g1 : rout.status = 0 → fdGet fds2 1 = some s1 := by
          intro hr
          have e2 : fds2 = fds1 := if_neg (by simpa using hr)
          rw [e2, j1 1 (by decide)]
          exact k1
        by_cases hr : rin.status ≠ 0
        · simp only [if_pos hr]
          refine ⟨?_, ?_, ?_⟩
          · rw [fdGet_close_ne _ _ _ nd.1]
            exact fdGet_dup2_self _ _ _ _ pa
          · rw [fdGet_close_ne _ _ _ nd.2.2, fdGet_dup2_ne _ _ _ _ nb.1]
            exact pb
          · intro hro
            rw [fdGet_close_ne _ _ _ nd.2.1, fdGet_dup2_ne _ _ _ _ (by decide)]
            exact g1 hro
        · simp only [if_neg hr]
          refine ⟨?_, pb, g1⟩
          have e1 : fds1 = newOut.2 := if_neg hr
          rw [j2 0 (by decide), e1]
          exact k0
      have u : fdGet fds4 0 = some s0 ∧ fdGet fds4 1 = some s1 := by
        show fdGet (if rout.status ≠ 0 then close (dup2 fds3 stdOut.1 1) newOut.1 else fds3) 0 =
            some s0 ∧
          fdGet (if rout.status ≠ 0 then close (dup2 fds3 stdOut.1 1) newOut.1 else fds3) 1 =
            some s1
        rw [hib]
        by_cases hr : rout.status ≠ 0
        · simp only [if_pos hr]
          refine ⟨?_, ?_⟩
          · rw [fdGet_close_ne _ _ _ ne.1, fdGet_dup2_ne _ _ _ _ (by decide)]
            exact t.1
          · rw [fdGet_close_ne _ _ _ ne.2]
            exact fdGet_dup2_self _ _ _ _ t.2.1
        · simp only [if_neg hr]
          exact ⟨t.1, t.2.2 (by simpa using hr)⟩
      exact ⟨by rw [fdGet_close_ne _ _ _ nc.1]; exact u.1,
        by rw [fdGet_close_ne _ _ _ nc.2]; exact u.2⟩

theorem execArgsExternal_frame (os : Os) (sh sh1 : Shell) (mem m : Mem) (args a : Args)
    (v : Int) (h : execArgsExternal os sh mem args = .ok (.ret v sh1 m a)) :
    v = 1 ∧ sh1.allowBG = sh.allowBG ∧ sh1.chdirs = sh.chdirs ∧
      ((sh1.lastCommandStatus = sh.lastCommandStatus ∧
          sh1.lastCommandSignal = sh.lastCommandSignal) ∨ exactlyOneRecorded sh1) := by
  unfold execArgsExternal at h
  lift_lets at h
  extract_lets stdIn stdOut devNull at h
  cases hio : checkIORedirection mem args with
  | error e => rw [hio] at h; cases h
  | ok r =>
    obtain ⟨mem1, args1, rin, rout⟩ := r
    rw [hio] at h
    simp -zeta only at h
    lift_lets at h
    beta_reduce at h
    lift_lets at h
    extract_lets inPath newIn outPath newOut fds1 fds2 sh1' pushed waited sh2 fds3 fds4 at h
    split_ifs at h with c1 c2 c3
    · simp only [Except.ok.injEq, Outcome.ret.injEq] at h
      obtain ⟨rfl, rfl, -, -⟩ := h
      simp [exactlyOneRecorded]
    · simp only [Except.ok.injEq, Outcome.ret.injEq] at h
      obtain ⟨rfl, rfl, -, -⟩ := h
      simp [exactlyOneRecorded]
    · simp at h
    · simp only [Except.ok.injEq, Outcome.ret.injEq] at h
      obtain ⟨rfl, rfl, -, -⟩ := h
      refine ⟨rfl, ?_⟩
      show sh2.allowBG = sh.allowBG ∧ sh2.chdirs = sh.chdirs ∧
        ((sh2.lastCommandStatus = sh.lastCommandStatus ∧
          sh2.lastCommandSignal = sh.lastCommandSignal) ∨ exactlyOneRecorded
            { sh2 with fds := close fds4 devNull.1 })
      have hex : ∀ x : Shell, exactlyOneRecorded { x with fds := close fds4 devNull.1 } ↔
          exactlyOneRecorded x := fun x => Iff.rfl
      rw [hex]
      by_cases f1 : os.fork = -1
      · have e : sh2 = { sh1' with out := sh1'.out ++ [.forkUnsuccessful] } := if_pos f1
        rw [e]
        exact ⟨rfl, rfl, Or.inl ⟨rfl, rfl⟩⟩
      · by_cases b0 : pushed.lastCommandIsBG = 0
        · have e : sh2 =
              { waited with processStack := deleteFromStack waited.processStack os.fork } :=
            (if_neg f1).trans (if_pos b0)
          rw [e]
          refine ⟨(recordStatus_frame pushed os.wait).1,
            (recordStatus_frame pushed os.wait).2.2.2.2, ?_⟩
          exact recordStatus_status pushed os.wait
        · have e : sh2 = pushed := (if_neg f1).trans (if_neg b0)
          rw [e]
          exact ⟨rfl, rfl, Or.inl ⟨rfl, rfl⟩⟩



theorem recordStatus_update (sh : Shell) (stat : Int) (p : List Int) (f : Fds) :
    recordStatus { sh with processStack := p, fds := f } stat =
      { recordStatus sh stat with processStack := p, fds := f } := by
  unfold recordStatus shStatus
  split_ifs <;> rfl

theorem execArgsExternal_open_fails (os : Os) (sh : Shell) (mem mem1 : Mem) (args args1 : Args)
    (rin rout : redirect) (hio : checkIORedirection mem args = .ok (mem1, args1, rin, rout)) :
    (rin.status ≠ 0 → os.openIn (rin.path.getD []) = false →
        ∃ fds, execArgsExternal os sh mem args =
          .ok (.ret 1 { sh with fds := fds,
                                out := sh.out ++ [.cannotOpenInput (rin.path.getD [])],
                                lastCommandStatus := 1, lastCommandSignal := -5 } mem1 args1)) ∧
      ((rin.status ≠ 0 → os.openIn (rin.path.getD []) = true) → rout.status ≠ 0 →
        os.openOut (rout.path.getD []) = false →
        ∃ fds, execArgsExternal os sh mem args =
          .ok (.ret 1 { sh with fds := fds,
                                out := sh.out ++ [.cannotOpenOutput (rout.path.getD [])],
                                lastCommandStatus := 1, lastCommandSignal := -5 } mem1 args1)) := by
  obtain ⟨r, h⟩ : ∃ r, execArgsExternal os sh mem args = r := ⟨_, rfl⟩
  rw [h]
  unfold execArgsExternal at h
  lift_lets at h
  extract_lets stdIn stdOut devNull at h
  rw [hio] at h
  simp -zeta only at h
  lift_lets at h
  beta_reduce at h
  lift_lets at h
  extract_lets inPath newIn outPath newOut fds1 fds2 sh1' pushed waited sh2 fds3 fds4 at h
  have hin : rin.status ≠ 0 → os.openIn inPath = false → newIn.1 = none := by
    intro h1 h2
    show (if rin.status ≠ 0 then openFd devNull.2 (os.openIn inPath) (Stream.file inPath)
      else (none, devNull.2)).1 = none
    rw [if_pos h1, h2]
    rfl
  have hin2 : rin.status ≠ 0 → os.openIn inPath = true → newIn.1 ≠ none := by
    intro h1 h2
    show (if rin.status ≠ 0 then openFd devNull.2 (os.openIn inPath) (Stream.file inPath)
      else (none, devNull.2)).1 ≠ none
    rw [if_pos h1, h2]
    simp [openFd]
  have hout : rout.status ≠ 0 → os.openOut outPath = false → newOut.1 = none := by
    intro h1 h2
    show (if rout.status ≠ 0 then openFd newIn.2 (os.openOut outPath) (Stream.file outPath)
      else (none, newIn.2)).1 = none
    rw [if_pos h1, h2]
    rfl
  constructor
  · intro h1 h2
    rw [if_pos ⟨h1, hin h1 h2⟩] at h
    exact ⟨newIn.2, h.symm⟩
  · intro h1 h2 h3
    rw [if_neg (fun c => hin2 c.1 (h1 c.1) c.2), if_pos ⟨h2, hout h2 h3⟩] at h
    exact ⟨newOut.2, h.symm⟩

theorem execArgsExternal_foreground (os : Os) (sh : Shell) (mem mem1 : Mem)
    (args args1 : Args) (rin rout : redirect)
    (hio : checkIORedirection mem args = .ok (mem1, args1, rin, rout))
    (hin : rin.status ≠ 0 → os.openIn (rin.path.getD []) = true)
    (hout : rout.status ≠ 0 → os.openOut (rout.path.getD []) = true)
    (hf0 : os.fork ≠ 0) (hf1 : os.fork ≠ -1) (hfg : sh.lastCommandIsBG = 0) :
    ∃ fds, execArgsExternal os sh mem args =
      .ok (.ret 1 { recordStatus sh os.wait with
                      fds := fds,
                      processStack :=
                        deleteFromStack (pushStack sh.processStack os.fork) os.fork }
            mem1 args1) := by
  obtain ⟨r, h⟩ : ∃ r, execArgsExternal os sh mem args = r := ⟨_, rfl⟩
  rw [h]
  unfold execArgsExternal at h
  lift_lets at h
  extract_lets stdIn stdOut devNull at h
  rw [hio] at h
  simp -zeta only at h
  lift_lets at h
  beta_reduce at h
  lift_lets at h
  extract_lets inPath newIn outPath newOut fds1 fds2 sh1' pushed waited sh2 fds3 fds4 at h
  have hin2 : rin.status ≠ 0 → newIn.1 ≠ none := by
    intro h1
    show (if rin.status ≠ 0 then openFd devNull.2 (os.openIn inPath) (Stream.file inPath)
      else (none, devNull.2)).1 ≠ none
    rw [if_pos h1, hin h1]
    simp [openFd]
  have hout2 : rout.status ≠ 0 → newOut.1 ≠ none := by
    intro h1
    show (if rout.status ≠ 0 then openFd newIn.2 (os.openOut outPath) (Stream.file outPath)
      else (none, newIn.2)).1 ≠ none
    rw [if_pos h1, hout h1]
    simp [openFd]
  rw [if_neg (fun c => hin2 c.1 c.2), if_neg (fun c => hout2 c.1 c.2), if_neg hf0] at h
  have e : sh2 = { waited with processStack := deleteFromStack waited.processStack os.fork } :=
    (if_neg hf1).trans (if_pos hfg)
  have ew : waited = { recordStatus sh os.wait with
      processStack := pushStack sh.processStack os.fork, fds := fds2 } :=
    recordStatus_update sh os.wait _ _
  refine ⟨close fds4 devNull.1, ?_⟩
  rw [← h, e, ew]


theorem execArgsBackground_frame (sh sh1 : Shell) (mem : Mem) (argc n : Nat) (args a : Args)
    (h : execArgsBackground sh mem argc args = .ok (sh1, n, a)) :
    sh1.allowBG = sh.allowBG ∧ sh1.lastCommandStatus = sh.lastCommandStatus ∧
      sh1.lastCommandSignal = sh.lastCommandSignal ∧ sh1.fds = sh.fds ∧
      sh1.processStack = sh.processStack ∧ sh1.out = sh.out ∧ sh1.chdirs = sh.chdirs := by
  unfold execArgsBackground at h
  split at h
  · cases h
  · split at h
    · cases h
    · cases h
    · split_ifs at h <;>
        (simp only [Except.ok.injEq, Prod.mk.injEq] at h
         obtain ⟨rfl, -, -⟩ := h
         simp)

theorem shCd_frame (sh sh1 : Shell) (mem : Mem) (args : Args)
    (h : shCd sh mem args = .ok sh1) :
    sh1.allowBG = sh.allowBG ∧ sh1.lastCommandStatus = sh.lastCommandStatus ∧
      sh1.lastCommandSignal = sh.lastCommandSignal ∧ sh1.fds = sh.fds := by
  unfold shCd at h
  split at h
  · cases h
  · simp only [Except.ok.injEq] at h
    subst h
    exact ⟨rfl, rfl, rfl, rfl⟩
  · simp only [Except.ok.injEq] at h
    subst h
    exact ⟨rfl, rfl, rfl, rfl⟩

theorem execArgsDispatch_frame (os : Os) (sh sh1 : Shell) (mem m : Mem) (args a : Args)
    (v : Int) (h : execArgsDispatch os sh mem args = .ok (.ret v sh1 m a)) :
    v = 1 ∧ sh1.allowBG = sh.allowBG ∧
      ((sh1.lastCommandStatus = sh.lastCommandStatus ∧
          sh1.lastCommandSignal = sh.lastCommandSignal) ∨ exactlyOneRecorded sh1) ∧
      ∀ s0 s1, fdGet sh.fds 0 = some s0 → fdGet sh.fds 1 = some s1 →
        fdGet sh1.fds 0 = some s0 ∧ fdGet sh1.fds 1 = some s1 := by
  unfold execArgsDispatch at h
  split at h
  · cases h
  · cases h
  · split_ifs at h with c1 c2 c3
    · cases h
    · split at h
      · cases h
      · rename_i shc hc
        simp only [Except.ok.injEq, Outcome.ret.injEq] at h
        obtain ⟨rfl, rfl, -, -⟩ := h
        obtain ⟨f1, f2, f3, f4⟩ := shCd_frame _ _ _ _ hc
        refine ⟨rfl, f1, Or.inl ⟨f2, f3⟩, ?_⟩
        intro s0 s1 h0 h1
        rw [f4]
        exact ⟨h0, h1⟩
    · simp only [Except.ok.injEq, Outcome.ret.injEq] at h
      obtain ⟨rfl, rfl, -, -⟩ := h
      obtain ⟨f1, -, f3, f4, -, f6, -⟩ := shStatus_frame sh
      refine ⟨rfl, f1, Or.inl ⟨f3, f4⟩, ?_⟩
      intro s0 s1 h0 h1
      rw [f6]
      exact ⟨h0, h1⟩
    · obtain ⟨g1, g2, -, g4⟩ := execArgsExternal_frame os sh sh1 mem m args a v h
      exact ⟨g1, g2, g4, fun s0 s1 h0 h1 => execArgsExternal_fds os sh sh1 mem m args a v s0 s1 h0 h1 h⟩

theorem execArgs_frame (os : Os) (sh sh1 : Shell) (mem m : Mem) (argc : Nat) (args a : Args)
    (v : Int) (h : execArgs os sh mem argc args = .ok (.ret v sh1 m a)) :
    v = 1 ∧ sh1.allowBG = sh.allowBG ∧
      ((sh1.lastCommandStatus = sh.lastCommandStatus ∧
          sh1.lastCommandSignal = sh.lastCommandSignal) ∨ exactlyOneRecorded sh1) ∧
      ∀ s0 s1, fdGet sh.fds 0 = some s0 → fdGet sh.fds 1 = some s1 →
        fdGet sh1.fds 0 = some s0 ∧ fdGet sh1.fds 1 = some s1 := by
  unfold execArgs at h
  split at h
  · cases h
  · simp only [Except.ok.injEq, Outcome.ret.injEq] at h
    obtain ⟨rfl, rfl, -, -⟩ := h
    exact ⟨rfl, rfl, Or.inl ⟨rfl, rfl⟩, fun _ _ h0 h1 => ⟨h0, h1⟩⟩
  · split at h
    · cases h
    · rename_i shb n ab hb
      obtain ⟨b1, b2, b3, b4, -⟩ := execArgsBackground_frame _ _ _ _ _ _ _ hb
      obtain ⟨d1, d2, d3, d4⟩ := execArgsDispatch_frame _ _ _ _ _ _ _ _ h
      refine ⟨d1, d2.trans b1, ?_, ?_⟩
      · rcases d3 with d3 | d3
        · exact Or.inl ⟨d3.1.trans b2, d3.2.trans b3⟩
        · exact Or.inr d3
      · intro s0 s1 h0 h1
        exact d4 s0 s1 (by rw [b4]; exact h0) (by rw [b4]; exact h1)

theorem checkLoop_frame (wait : Int → Option Int) (l : List Int) (sh : Shell) :
    (checkLoop wait l sh).allowBG = sh.allowBG ∧
      (checkLoop wait l sh).lastCommandStatus = sh.lastCommandStatus ∧
      (checkLoop wait l sh).lastCommandSignal = sh.lastCommandSignal := by
  induction l generalizing sh with
  | nil => exact ⟨rfl, rfl, rfl⟩
  | cons x rest ih =>
    simp only [checkLoop]
    split
    · exact ih sh
    · split_ifs
      · obtain ⟨i1, i2, i3⟩ := ih
          { sh with out := sh.out ++ [.backgroundDone x (WEXITSTATUS _)],
                    processStack := deleteFromStack sh.processStack x }
        exact ⟨i1, i2, i3⟩
      · exact ih sh

theorem toggleBG_frame (sh : Shell) :
    (toggleBG sh).lastCommandStatus = sh.lastCommandStatus ∧
      (toggleBG sh).lastCommandSignal = sh.lastCommandSignal ∧
      ((toggleBG sh).allowBG = 0 ∨ (toggleBG sh).allowBG = 1) := by
  unfold toggleBG
  split_ifs <;> simp

/-- The invariant of the reachable states: `allowBG` is 0 or 1, and the two
status globals are both still 0 or exactly one of them differs from `-5`. -/
theorem reachable_inv (sh : Shell) (h : Reachable sh) :
    (sh.allowBG = 0 ∨ sh.allowBG = 1) ∧
      ((sh.lastCommandStatus = 0 ∧ sh.lastCommandSignal = 0) ∨ exactlyOneRecorded sh) := by
  induction h with
  | init => exact ⟨Or.inr rfl, Or.inl ⟨rfl, rfl⟩⟩
  | dispatch os pid bfrsize line sh sh1 v mem args _ hd ih =>
    unfold dispatchLine at hd
    split at hd
    · cases hd
    · cases hd
    · simp only [Option.some.injEq] at hd
      obtain ⟨-, e2, e3, -⟩ := execArgs_frame _ _ _ _ _ _ _ _ _ hd
      refine ⟨by rw [e2]; exact ih.1, ?_⟩
      rcases e3 with e3 | e3
      · rcases ih.2 with i2 | i2
        · exact Or.inl ⟨e3.1.trans i2.1, e3.2.trans i2.2⟩
        · right
          unfold exactlyOneRecorded at i2 ⊢
          rw [e3.1, e3.2]
          exact i2
      · exact Or.inr e3
  | toggle sh _ ih =>
    obtain ⟨t1, t2, t3⟩ := toggleBG_frame sh
    refine ⟨t3, ?_⟩
    unfold exactlyOneRecorded at ih ⊢
    rw [t1, t2]
    exact ih.2
  | children wait sh _ ih =>
    obtain ⟨c1, c2, c3⟩ := checkLoop_frame wait sh.processStack sh
    unfold checkOnChildren
    unfold exactlyOneRecorded at ih ⊢
    rw [c1, c2, c3]
    exact ih


/-- A state later than a reachable state is reachable. -/
theorem reachable_of_reachableFrom (sh0 sh : Shell) (h0 : Reachable sh0)
    (h : ReachableFrom sh0 sh) : Reachable sh := by
  induction h with
  | refl => exact h0
  | dispatch os pid bfrsize line sh sh1 v mem args _ hd ih =>
    exact Reachable.dispatch os pid bfrsize line sh sh1 v mem args ih hd
  | toggle sh _ ih => exact Reachable.toggle sh ih
  | children wait sh _ ih => exact Reachable.children wait sh ih

theorem recordStatus_exited (sh : Shell) (stat : Int) (h : WIFEXITED stat = true) :
    recordStatus sh stat =
      { sh with lastCommandStatus := WEXITSTATUS stat, lastCommandSignal := -5 } := by
  have hs : WIFSIGNALED stat = false := by
    simp only [WIFEXITED, decide_eq_true_eq] at h
    simp [WIFSIGNALED, h]
  unfold recordStatus
  simp [hs, h]

theorem recordStatus_signaled (sh : Shell) (stat : Int) (h : WIFSIGNALED stat = true) :
    recordStatus sh stat =
      { sh with lastCommandSignal := WTERMSIG stat, lastCommandStatus := -5,
                out := if WTERMSIG stat = 2 then sh.out ++ [.terminatedBySignal 2]
                       else sh.out } := by
  have he : WIFEXITED stat = false := by
    simp only [WIFSIGNALED, Bool.and_eq_true, decide_eq_true_eq] at h
    simp [WIFEXITED, h.1]
  unfold recordStatus
  by_cases h2 : WTERMSIG stat = 2
  · simp [h, h2, shStatus]
  · simp [h, h2, he]

/-! ## The background-admission flag -/

/-- C11: in every reachable state `allowBG` is 0 or 1; one run of `toggleBG`
turns 1 into 0 with the notice of entering foreground-only mode and 0 into 1
with the notice of leaving it, each time adding exactly that one notice, and
two runs in succession give `allowBG` its first value again. -/
theorem toggleBG_twice (sh : Shell) (h : Reachable sh) :
    (toggleBG (toggleBG sh)).allowBG = sh.allowBG ∧
      ((sh.allowBG = 1 ∧ (toggleBG sh).allowBG = 0 ∧
          (toggleBG sh).out = sh.out ++ [.enteringForegroundOnly]) ∨
        (sh.allowBG = 0 ∧ (toggleBG sh).allowBG = 1 ∧
          (toggleBG sh).out = sh.out ++ [.exitingForegroundOnly])) := by
  rcases (reachable_inv sh h).1 with h0 | h1
  · simp [toggleBG, h0]
  · simp [toggleBG, h1]

theorem toggleBG_twice_witness :
    (toggleBG (toggleBG (toggleBG Shell.init))).allowBG = (toggleBG Shell.init).allowBG ∧
      (((toggleBG Shell.init).allowBG = 1 ∧ (toggleBG (toggleBG Shell.init)).allowBG = 0 ∧
          (toggleBG (toggleBG Shell.init)).out =
            (toggleBG Shell.init).out ++ [.enteringForegroundOnly]) ∨
        ((toggleBG Shell.init).allowBG = 0 ∧ (toggleBG (toggleBG Shell.init)).allowBG = 1 ∧
          (toggleBG (toggleBG Shell.init)).out =
            (toggleBG Shell.init).out ++ [.exitingForegroundOnly])) :=
  toggleBG_twice (toggleBG Shell.init) (Reachable.toggle Shell.init Reachable.init)

/-! ## The last exit status -/

/-- C12: in every reachable state, the initial one included, `shStatus` adds
exactly one line to the output: `exit value N` with `N = lastCommandStatus`
when that is not `-5`, and otherwise `terminated by signal N` with
`N = lastCommandSignal`, which then is not `-5`. -/
theorem shStatus_one_line (sh : Shell) (h : Reachable sh) :
    (sh.lastCommandStatus ≠ -5 ∧
        (shStatus sh).out = sh.out ++ [.exitValue sh.lastCommandStatus]) ∨
      (sh.lastCommandStatus = -5 ∧ sh.lastCommandSignal ≠ -5 ∧
        (shStatus sh).out = sh.out ++ [.terminatedBySignal sh.lastCommandSignal]) := by
  rcases (reachable_inv sh h).2 with h0 | h1 | h1
  · left
    simp [shStatus, h0.1]
  · left
    simp [shStatus, h1.1]
  · right
    simp [shStatus, h1.1, h1.2]

theorem shStatus_one_line_witness :
    (Shell.init.lastCommandStatus ≠ -5 ∧
        (shStatus Shell.init).out = Shell.init.out ++ [.exitValue Shell.init.lastCommandStatus]) ∨
      (Shell.init.lastCommandStatus = -5 ∧ Shell.init.lastCommandSignal ≠ -5 ∧
        (shStatus Shell.init).out =
          Shell.init.out ++ [.terminatedBySignal Shell.init.lastCommandSignal]) :=
  shStatus_one_line Shell.init Reachable.init

/-- C14: for a foreground child (the opens succeeded, `fork` gave a child id,
`lastCommandIsBG` is 0) `execArgs` returns 1 and: if the wait status is an
exit with code `c`, then `lastCommandStatus = c`, `lastCommandSignal = -5` and
nothing is printed; if it is a termination by signal `s`, then
`lastCommandSignal = s`, `lastCommandStatus = -5`, and the line
`terminated by signal 2` is printed exactly when `s = 2`. -/
theorem execArgs_records_wait_status (os : Os) (sh : Shell) (mem mem1 : Mem)
    (args args1 : Args) (rin rout : redirect)
    (hio : checkIORedirection mem args = .ok (mem1, args1, rin, rout))
    (hin : rin.status ≠ 0 → os.openIn (rin.path.getD []) = true)
    (hout : rout.status ≠ 0 → os.openOut (rout.path.getD []) = true)
    (hf0 : os.fork ≠ 0) (hf1 : os.fork ≠ -1) (hfg : sh.lastCommandIsBG = 0) :
    ∃ sh1, execArgsExternal os sh mem args = .ok (.ret 1 sh1 mem1 args1) ∧
      (WIFEXITED os.wait = true →
        sh1.lastCommandStatus = WEXITSTATUS os.wait ∧ sh1.lastCommandSignal = -5 ∧
          sh1.out = sh.out) ∧
      (WIFSIGNALED os.wait = true →
        sh1.lastCommandSignal = WTERMSIG os.wait ∧ sh1.lastCommandStatus = -5 ∧
          sh1.out = if WTERMSIG os.wait = 2 then sh.out ++ [.terminatedBySignal 2]
                    else sh.out) := by
  obtain ⟨fds, hf⟩ := execArgsExternal_foreground os sh mem mem1 args args1 rin rout hio hin
    hout hf0 hf1 hfg
  refine ⟨_, hf, ?_, ?_⟩
  · intro hw
    show (recordStatus sh os.wait).lastCommandStatus = _ ∧
      (recordStatus sh os.wait).lastCommandSignal = _ ∧ (recordStatus sh os.wait).out = _
    rw [recordStatus_exited sh _ hw]
    exact ⟨rfl, rfl, rfl⟩
  · intro hw
    show (recordStatus sh os.wait).lastCommandSignal = _ ∧
      (recordStatus sh os.wait).lastCommandStatus = _ ∧ (recordStatus sh os.wait).out = _
    rw [recordStatus_signaled sh _ hw]
    exact ⟨rfl, rfl, rfl⟩

theorem execArgs_records_wait_status_witness :
    ∃ sh1, execArgsExternal ⟨fun _ => true, fun _ => true, true, 100, 2⟩ Shell.init
        [115, 108, 101, 101, 112, 0, 53, 0, 0] [some 0, some 6, none] =
        .ok (.ret 1 sh1 [115, 108, 101, 101, 112, 0, 53, 0, 0] [some 0, some 6, none]) ∧
      (WIFEXITED 2 = true →
        sh1.lastCommandStatus = WEXITSTATUS 2 ∧ sh1.lastCommandSignal = -5 ∧
          sh1.out = Shell.init.out) ∧
      (WIFSIGNALED 2 = true →
        sh1.lastCommandSignal = WTERMSIG 2 ∧ sh1.lastCommandStatus = -5 ∧
          sh1.out = if WTERMSIG 2 = 2 then Shell.init.out ++ [.terminatedBySignal 2]
                    else Shell.init.out) :=
  execArgs_records_wait_status ⟨fun _ => true, fun _ => true, true, 100, 2⟩ Shell.init
    [115, 108, 101, 101, 112, 0, 53, 0, 0] [115, 108, 101, 101, 112, 0, 53, 0, 0]
    [some 0, some 6, none] [some 0, some 6, none] ⟨0, none⟩ ⟨0, none⟩ (by decide)
    (by decide) (by decide) (by decide) (by decide) (by decide)

/-- C15: when `checkIORedirection` has found an input target and its `open`
fails, or the input is fine and the `open` of an output target fails,
`execArgs` returns 1 without reaching `fork`: the process stack is unchanged,
the notice names the path that could not be opened, `lastCommandStatus` is 1
and `lastCommandSignal` is `-5`. -/
theorem execArgs_open_failure (os : Os) (sh : Shell) (mem mem1 : Mem) (args args1 : Args)
    (rin rout : redirect) (hio : checkIORedirection mem args = .ok (mem1, args1, rin, rout)) :
    (rin.status ≠ 0 → os.openIn (rin.path.getD []) = false →
        ∃ sh1, execArgsExternal os sh mem args = .ok (.ret 1 sh1 mem1 args1) ∧
          sh1.processStack = sh.processStack ∧
          sh1.out = sh.out ++ [.cannotOpenInput (rin.path.getD [])] ∧
          sh1.lastCommandStatus = 1 ∧ sh1.lastCommandSignal = -5) ∧
      ((rin.status ≠ 0 → os.openIn (rin.path.getD []) = true) → rout.status ≠ 0 →
        os.openOut (rout.path.getD []) = false →
        ∃ sh1, execArgsExternal os sh mem args = .ok (.ret 1 sh1 mem1 args1) ∧
          sh1.processStack = sh.processStack ∧
          sh1.out = sh.out ++ [.cannotOpenOutput (rout.path.getD [])] ∧
          sh1.lastCommandStatus = 1 ∧ sh1.lastCommandSignal = -5) := by
  obtain ⟨ha, hb⟩ := execArgsExternal_open_fails os sh mem mem1 args args1 rin rout hio
  constructor
  · intro h1 h2
    obtain ⟨fds, hf⟩ := ha h1 h2
    exact ⟨_, hf, rfl, rfl, rfl, rfl⟩
  · intro h1 h2 h3
    obtain ⟨fds, hf⟩ := hb h1 h2 h3
    exact ⟨_, hf, rfl, rfl, rfl, rfl⟩

theorem execArgs_open_failure_witness :
    ∃ sh1, execArgsExternal ⟨fun _ => false, fun _ => true, true, 100, 0⟩ Shell.init
        [119, 99, 0, 60, 0, 105, 110, 46, 116, 120, 116, 0, 0]
        [some 0, some 3, some 5, none] =
        .ok (.ret 1 sh1 [119, 99, 0, 60, 0, 105, 110, 46, 116, 120, 116, 0, 0]
          [some 0, none, none, none]) ∧
      sh1.processStack = Shell.init.processStack ∧
      sh1.out = Shell.init.out ++
        [.cannotOpenInput ((⟨1, some (bytes "in.txt")⟩ : redirect).path.getD [])] ∧
      sh1.lastCommandStatus = 1 ∧ sh1.lastCommandSignal = -5 :=
  (execArgs_open_failure ⟨fun _ => false, fun _ => true, true, 100, 0⟩ Shell.init
    [119, 99, 0, 60, 0, 105, 110, 46, 116, 120, 116, 0, 0]
    [119, 99, 0, 60, 0, 105, 110, 46, 116, 120, 116, 0, 0]
    [some 0, some 3, some 5, none] [some 0, none, none, none]
    ⟨1, some (bytes "in.txt")⟩ ⟨0, none⟩ (by decide)).1 (by decide) rfl


/-! ## The built-in `cd` -/

/-- C16, as stated: for `cd /nonexistent` the function `shCd` asks for the
directory change and leaves the output as it was; it never reads the result
of `chdir`, so no failure notice is emitted when the change fails. -/
theorem shCd_emits_nothing :
    shCd Shell.init [99, 100, 0, 47, 110, 111, 110, 101, 120, 105, 115, 116, 101, 110, 116, 0, 0]
        [some 0, some 3, none] =
      .ok { Shell.init with chdirs := [some (bytes "/nonexistent")], out := [] } := by
  decide

/-- C16, amended: `shCd` asks for a change to the first argument when there is
one and to the HOME directory (`none`) otherwise, changes nothing else in the
state, in particular prints nothing whether or not the change succeeds, and
`execArgs` returns 1 for the command `cd` in every case. -/
theorem shCd_targets_and_continues (os : Os) (sh : Shell) (mem : Mem) (args : Args)
    (cmd : Nat) (target : Option Nat) (h0 : args.get? 0 = some (some cmd))
    (hcd : cstr mem cmd = bytes "cd") (h1 : args.get? 1 = some target) :
    shCd sh mem args =
        .ok { sh with chdirs := sh.chdirs ++ [target.map (fun p => cstr mem p)] } ∧
      execArgsDispatch os sh mem args =
        .ok (.ret 1 { sh with chdirs := sh.chdirs ++ [target.map (fun p => cstr mem p)] }
          mem args) := by
  have hs : shCd sh mem args =
      .ok { sh with chdirs := sh.chdirs ++ [target.map (fun p => cstr mem p)] } := by
    unfold shCd
    rw [h1]
    cases target <;> rfl
  refine ⟨hs, ?_⟩
  unfold execArgsDispatch
  rw [h0]
  have hne : bytes "cd" ≠ bytes "exit" := by decide
  simp only [hcd, hne, if_false, if_true, hs]

theorem shCd_targets_and_continues_witness :
    shCd Shell.init [99, 100, 0, 0] [some 0, none] =
        .ok { Shell.init with
                chdirs := Shell.init.chdirs ++
                  [(none : Option Nat).map (fun p => cstr [99, 100, 0, 0] p)] } ∧
      execArgsDispatch ⟨fun _ => true, fun _ => true, true, 100, 0⟩ Shell.init [99, 100, 0, 0]
          [some 0, none] =
        .ok (.ret 1 { Shell.init with
                        chdirs := Shell.init.chdirs ++
                          [(none : Option Nat).map (fun p => cstr [99, 100, 0, 0] p)] }
          [99, 100, 0, 0] [some 0, none]) :=
  shCd_targets_and_continues ⟨fun _ => true, fun _ => true, true, 100, 0⟩ Shell.init
    [99, 100, 0, 0] [some 0, none] 0 none rfl (by decide) rfl

/-! ## The standard streams -/

/-- C17: if descriptors 0 and 1 are open when `execArgs` is called and the
call returns in the shell process (built-in or external command, foreground
or background, with or without redirections, `fork` failed or not, an `open`
failed or not), then after the call they refer to the same streams as
before. -/
theorem execArgs_restores_standard_streams (os : Os) (sh sh1 : Shell) (mem m : Mem)
    (argc : Nat) (args a : Args) (v : Int) (s0 s1 : Stream)
    (h0 : fdGet sh.fds 0 = some s0) (h1 : fdGet sh.fds 1 = some s1)
    (h : execArgs os sh mem argc args = .ok (.ret v sh1 m a)) :
    fdGet sh1.fds 0 = some s0 ∧ fdGet sh1.fds 1 = some s1 :=
  (execArgs_frame os sh sh1 mem m argc args a v h).2.2.2 s0 s1 h0 h1

theorem execArgs_restores_standard_streams_witness :
    ∃ sh1 : Shell,
      execArgs ⟨fun _ => true, fun _ => true, true, 100, 0⟩ Shell.init
          [119, 99, 0, 60, 0, 105, 110, 46, 116, 120, 116, 0, 62, 0, 111, 117, 116, 46, 116,
            120, 116, 0, 0]
          5 [some 0, some 3, some 5, some 12, some 14, none] =
        .ok (.ret 1 sh1
          [119, 99, 0, 62, 0, 111, 117, 116, 46, 116, 120, 116, 0, 0, 111, 117, 116, 46, 116,
            120, 116, 0, 0]
          [some 0, none, none, none, none, none]) ∧
      fdGet sh1.fds 0 = some .stdin ∧ fdGet sh1.fds 1 = some .stdout :=
  have hx : execArgs ⟨fun _ => true, fun _ => true, true, 100, 0⟩ Shell.init
      [119, 99, 0, 60, 0, 105, 110, 46, 116, 120, 116, 0, 62, 0, 111, 117, 116, 46, 116,
        120, 116, 0, 0]
      5 [some 0, some 3, some 5, some 12, some 14, none] =
      .ok (.ret 1 ⟨1, 0, 0, -5, [], [some .stdin, some .stdout, some .stderr, some .stdin,
          some .stdout, none, none, none], [], []⟩
        [119, 99, 0, 62, 0, 111, 117, 116, 46, 116, 120, 116, 0, 0, 111, 117, 116, 46, 116,
          120, 116, 0, 0]
        [some 0, none, none, none, none, none]) := by decide
  ⟨_, hx, execArgs_restores_standard_streams _ Shell.init _ _ _ _ _ _ _ .stdin .stdout rfl rfl
    hx⟩

/-! ## Tokens after a redirection, resuming the search for `$$` -/

/-- C18: for `cmd < a bb ccc` the scan copies the text of `bb` and of `ccc`
into the places of `<` and `a`, which are shorter: the arguments left are
`cmd`, `bbccc`, `ccc` and not `cmd`, `bb`, `ccc`; the input target is `a`. -/
theorem checkIORedirection_overwrites_tokens :
    resolveLine 4242 120 (bytes "cmd < a bb ccc\n") =
      some (.ok ⟨[bytes "cmd", bytes "bbccc", bytes "ccc"], some (bytes "a"), none⟩) := by
  decide

/-- C19: for the process id 1 and the line `echo $$` without a newline, the
round of the loop that replaces `$$` leaves the line `echo 1` of length 6 and
sets `ptr` to offset 7, one past the terminator of the expanded line. -/
theorem expandStep_resumes_past_terminator :
    (expandStep (decimal 1) 120 (bytes "echo $$" ++ [0]) 0).map
        (fun r => r.map (fun q => (cstr q.1 0, (cstr q.1 0).length, q.2))) =
      some (.ok (bytes "echo 1", 6, 7)) := by
  decide

/-! ## Push and delete on the foreground path -/

/-- C20: for a non-zero `v`, `deleteFromStack` right after `pushStack` of the
same `v` gives back the stack as it was; and on the foreground path of
`execArgs`, where `v` is the child id returned by `fork`, the process stack
after the call is the one before the call. -/
theorem deleteFromStack_after_pushStack (s : List Int) (v : Int) (hv : v ≠ 0) :
    deleteFromStack (pushStack s v) v = s ∧
      ∀ (os : Os) (sh : Shell) (mem mem1 : Mem) (args args1 : Args) (rin rout : redirect),
        checkIORedirection mem args = .ok (mem1, args1, rin, rout) →
        (rin.status ≠ 0 → os.openIn (rin.path.getD []) = true) →
        (rout.status ≠ 0 → os.openOut (rout.path.getD []) = true) →
        os.fork = v → os.fork ≠ -1 → sh.lastCommandIsBG = 0 → sh.processStack = s →
        ∃ sh1, execArgsExternal os sh mem args = .ok (.ret 1 sh1 mem1 args1) ∧
          sh1.processStack = s := by
  have key : deleteFromStack (pushStack s v) v = s := by
    rw [deleteFromStack_of_ne_zero _ _ hv]
    rfl
  refine ⟨key, ?_⟩
  intro os sh mem mem1 args args1 rin rout hio hin hout hf hf1 hfg hs
  obtain ⟨fds, h⟩ := execArgsExternal_foreground os sh mem mem1 args args1 rin rout hio hin
    hout (by rw [hf]; exact hv) hf1 hfg
  refine ⟨_, h, ?_⟩
  show deleteFromStack (pushStack sh.processStack os.fork) os.fork = s
  rw [hs, hf]
  exact key

theorem deleteFromStack_after_pushStack_witness :
    deleteFromStack (pushStack [5, 9] 7) 7 = [5, 9] :=
  (deleteFromStack_after_pushStack [5, 9] 7 (by decide)).1

/-! ## A command line that is only `&` -/

/-- C21: for the line `&` the first test of `execArgs` sees a token, the
handling of the trailing `&` then puts `NULL` into `args[0]`, and the loop
over the built-in names passes that `NULL` to `strcmp`: the dispatch ends in
this fault whatever the shell state and the answers of the system are, it
does not return 1. -/
theorem dispatch_lone_ampersand (os : Os) (sh : Shell) :
    getArgs 4242 120 (bytes "&\n") = some (.ok ([38, 0, 0], [some 0, none])) ∧
      execArgsBackground sh [38, 0, 0] 1 [some 0, none] =
        .ok ({ sh with lastCommandIsBG := if sh.allowBG ≠ 0 then 0 + 1 else 0 }, 0,
             [none, none]) ∧
      dispatchLine os 4242 120 sh (bytes "&\n") = some (.error .nullDeref) := by
  refine ⟨by decide, rfl, rfl⟩

end Smallsh

/-! # The room graph of the adventure game: lemmas and theorems -/

namespace Buildrooms

theorem timesVisited_shape (vs : List Int) (k : Nat) (e : Int) (he : e ≠ -1) :
    timesVisited (vs ++ List.replicate k (-1)) e = vs.count e := by
  unfold timesVisited
  rw [List.count_append]
  have : List.count e (List.replicate k (-1)) = 0 := by
    apply List.count_eq_zero_of_not_mem
    intro h
    exact he (List.eq_of_mem_replicate h)
  omega

theorem markRoom_shape (vs : List Int) (k : Nat) (e : Int) (hvs : (-1 : Int) ∉ vs) :
    markRoom (vs ++ List.replicate (k + 1) (-1)) e = some (vs ++ e :: List.replicate k (-1)) := by
  induction vs with
  | nil => simp [markRoom, List.replicate_succ]
  | cons x rest ih =>
    have hx : x ≠ -1 := fun h => hvs (by simp [h])
    have hr : (-1 : Int) ∉ rest := fun h => hvs (by simp [h])
    simp only [List.cons_append, markRoom, hx, if_false, List.append_eq, ih hr, Option.map_some']

theorem lastSlot_shape (vs : List Int) (k : Nat) (e : Int) :
    (vs ++ e :: List.replicate k (-1)).getD (vs.length + k) (-1) =
      if k = 0 then e else -1 := by
  rw [List.getD_eq_getElem?_getD, List.getElem?_append_right (by omega)]
  cases k with
  | zero => simp
  | succ j =>
    have : vs.length + (j + 1) - vs.length = j + 1 := by omega
    rw [this]
    simp

theorem mem_pushNeighbors (rv cs st : List Int) (x : Int) :
    x ∈ pushNeighbors rv cs st ↔ x ∈ st ∨ (x ∈ cs ∧ x ≠ -1 ∧ timesVisited rv x = 0) := by
  induction cs generalizing st with
  | nil => simp [pushNeighbors]
  | cons c rest ih =>
    simp only [pushNeighbors]
    split_ifs with h
    · rw [ih]
      simp only [List.mem_cons]
      constructor
      · rintro ((rfl | h1) | h1)
        · exact Or.inr ⟨Or.inl rfl, h.1, h.2⟩
        · exact Or.inl h1
        · exact Or.inr ⟨Or.inr h1.1, h1.2⟩
      · rintro (h1 | ⟨rfl | h1, h2⟩)
        · exact Or.inl (Or.inr h1)
        · exact Or.inl (Or.inl rfl)
        · exact Or.inr ⟨h1, h2⟩
    · rw [ih]
      simp only [List.mem_cons]
      constructor
      · rintro (h1 | h1)
        · exact Or.inl h1
        · exact Or.inr ⟨Or.inr h1.1, h1.2⟩
      · rintro (h1 | ⟨rfl | h1, h2⟩)
        · exact Or.inl h1
        · exact absurd h2 h
        · exact Or.inr ⟨h1, h2⟩

theorem length_pushNeighbors (rv cs st : List Int) :
    (pushNeighbors rv cs st).length ≤ st.length + cs.length := by
  induction cs generalizing st with
  | nil => simp [pushNeighbors]
  | cons c rest ih =>
    simp only [pushNeighbors]
    split_ifs
    · have := ih (c :: st)
      simp only [List.length_cons] at this ⊢
      omega
    · have := ih st
      simp only [List.length_cons]
      omega

/-- The room numbers `0, ..., n - 1`. -/
theorem rooms_nodup (n : Nat) : ((List.range n).map (fun i : Nat => (i : Int))).Nodup := by
  apply List.Nodup.map
  · intro a b h
    exact Int.ofNat.inj h
  · exact List.nodup_range n

theorem mem_rooms (n : Nat) (x : Int) :
    x ∈ (List.range n).map (fun i : Nat => (i : Int)) ↔ 0 ≤ x ∧ x < n := by
  simp only [List.mem_map, List.mem_range]
  constructor
  · rintro ⟨i, hi, rfl⟩
    omega
  · rintro ⟨h0, h1⟩
    exact ⟨x.toNat, by omega, by omega⟩

theorem all_rooms_of_full (n : Nat) (vs : List Int) (hnd : vs.Nodup)
    (hv : ∀ x ∈ vs, 0 ≤ x ∧ x < n) (hl : vs.length = n) (x : Int) (hx : 0 ≤ x ∧ x < n) :
    x ∈ vs := by
  have hsub : vs ⊆ (List.range n).map (fun i : Nat => (i : Int)) :=
    fun y hy => (mem_rooms n y).2 (hv y hy)
  have hp := (hnd.subperm hsub).perm_of_length_le (by simp [hl])
  exact hp.symm.subset ((mem_rooms n x).2 hx)

theorem length_of_all_rooms (n : Nat) (vs : List Int)
    (h : ∀ x : Int, 0 ≤ x ∧ x < n → x ∈ vs) : n ≤ vs.length := by
  have hsub : (List.range n).map (fun i : Nat => (i : Int)) ⊆ vs :=
    fun y hy => h y ((mem_rooms n y).1 hy)
  have := ((rooms_nodup n).subperm hsub).length_le
  simpa using this


theorem reaches_mem_of_closed (G : List Room) (b : Int) (vs : List Int) (hb : b ∈ vs)
    (hcl : ∀ v ∈ vs, ∀ room, G.get? v.toNat = some room →
      ∀ c ∈ room.connections, c ≠ -1 → c ∈ vs)
    (x : Int) (h : Reaches G b x) : x ∈ vs := by
  induction h with
  | start => exact hb
  | step a c room _ _ hroom hc hne ih => exact hcl a ih room hroom c hc hne

theorem dfsLoop_spec (G : List Room) (n : Nat) (b : Int) (hG : G.length = n)
    (hlen : ∀ r ∈ G, r.connections.length = n - 1)
    (hval : ∀ r ∈ G, ∀ c ∈ r.connections, c = -1 ∨ (0 ≤ c ∧ c < n))
    (fuel : Nat) (stack vs : List Int) (k : Nat)
    (hk : vs.length + (k + 1) = n)
    (hvs : ∀ x ∈ vs, 0 ≤ x ∧ x < n) (hnd : vs.Nodup)
    (hst : ∀ x ∈ stack, 0 ≤ x ∧ x < n)
    (rvs : ∀ x ∈ vs, Reaches G b x) (rst : ∀ x ∈ stack, Reaches G b x)
    (hcl : ∀ v ∈ vs, ∀ room, G.get? v.toNat = some room →
      ∀ c ∈ room.connections, c ≠ -1 → c ∈ vs ∨ c ∈ stack)
    (hb : b ∈ vs ∨ b ∈ stack)
    (hf : stack.length + (n - 1) * (k + 1) < fuel) :
    (dfsLoop G n fuel stack (vs ++ List.replicate (k + 1) (-1)) = .ok 1 ∧
        ∀ x : Int, 0 ≤ x ∧ x < n → Reaches G b x) ∨
      (dfsLoop G n fuel stack (vs ++ List.replicate (k + 1) (-1)) = .ok 0 ∧
        ¬ ∀ x : Int, 0 ≤ x ∧ x < n → Reaches G b x) := by
  have hm1 : (-1 : Int) ∉ vs := fun h => by have := hvs _ h; omega
  induction fuel generalizing stack vs k with
  | zero => omega
  | succ fuel ih =>
    cases stack with
    | nil =>
      right
      constructor
      · simp [dfsLoop, List.replicate_succ]
      · intro hall
        have hbv : b ∈ vs := by
          rcases hb with h | h
          · exact h
          · cases h
        have hc2 : ∀ v ∈ vs, ∀ room, G.get? v.toNat = some room →
            ∀ c ∈ room.connections, c ≠ -1 → c ∈ vs := by
          intro v hv room hroom c hc hne
          rcases hcl v hv room hroom c hc hne with h | h
          · exact h
          · cases h
        have := length_of_all_rooms n vs
          (fun x hx => reaches_mem_of_closed G b vs hbv hc2 x (hall x hx))
        omega
    | cons e st =>
      have he : 0 ≤ e ∧ e < n := hst e (by simp)
      have he1 : e ≠ -1 := by omega
      have hst2 : ∀ x ∈ st, 0 ≤ x ∧ x < n := fun x hx => hst x (by simp [hx])
      have rst2 : ∀ x ∈ st, Reaches G b x := fun x hx => rst x (by simp [hx])
      rw [dfsLoop, timesVisited_shape vs (k + 1) e he1]
      by_cases hmem : e ∈ vs
      · have hc : List.count e vs ≠ 0 := by
          intro h0
          exact (List.count_eq_zero.1 h0) hmem
        rw [if_pos hc]
        apply ih st vs k hk hvs hnd hst2 rvs rst2 _ _ _ hm1
        · intro v hv room hroom c hcm hne
          rcases hcl v hv room hroom c hcm hne with h | h
          · exact Or.inl h
          · rcases List.mem_cons.1 h with h | h
            · exact Or.inl (h ▸ hmem)
            · exact Or.inr h
        · rcases hb with h | h
          · exact Or.inl h
          · rcases List.mem_cons.1 h with h | h
            · exact Or.inl (h ▸ hmem)
            · exact Or.inr h
        · simp only [List.length_cons] at hf
          omega
      · have hc : ¬ List.count e vs ≠ 0 := by
          intro h0
          exact h0 (List.count_eq_zero.2 hmem)
        rw [if_neg hc, markRoom_shape vs k e hm1]
        have hl : (vs ++ e :: List.replicate k (-1)).getD (n - 1) (-1) =
            if k = 0 then e else -1 := by
          have hn1 : n - 1 = vs.length + k := by omega
          rw [hn1]
          exact lastSlot_shape vs k e
        simp only [Option.getD_some, Option.isSome_some, true_and, hl]
        have hnd2 : (vs ++ [e]).Nodup := by
          rw [List.nodup_append]
          refine ⟨hnd, List.nodup_singleton e, ?_⟩
          intro x hx hx2
          rw [List.mem_singleton] at hx2
          exact hmem (hx2 ▸ hx)
        have hvs2 : ∀ x ∈ vs ++ [e], 0 ≤ x ∧ x < n := by
          intro x hx
          rcases List.mem_append.1 hx with h | h
          · exact hvs x h
          · rw [List.mem_singleton] at h
            rw [h]
            exact he
        have rvs2 : ∀ x ∈ vs ++ [e], Reaches G b x := by
          intro x hx
          rcases List.mem_append.1 hx with h | h
          · exact rvs x h
          · rw [List.mem_singleton] at h
            rw [h]
            exact rst e (by simp)
        cases k with
        | zero =>
          left
          constructor
          · simp [he1]
          · intro x hx
            apply rvs2
            exact all_rooms_of_full n (vs ++ [e]) hnd2 hvs2 (by simp; omega) x hx
        | succ j =>
          have hlt : e.toNat < G.length := by omega
          obtain ⟨room, hroom⟩ : ∃ room, G.get? e.toNat = some room :=
            ⟨G.get ⟨e.toNat, hlt⟩, List.get?_eq_get hlt⟩
          have hrm : room ∈ G := List.get?_mem hroom
          have hrl := hlen room hrm
          simp only [Nat.succ_ne_zero, if_false, ne_eq, not_true_eq_false, not_lt.2 he.1, hroom,
            hrl, lt_irrefl]
          have hshape : vs ++ e :: List.replicate (j + 1) (-1) =
              (vs ++ [e]) ++ List.replicate (j + 1) (-1) := by simp
          rw [hshape]
          have htake : room.connections.take (n - 1) = room.connections := by
            rw [← hrl]
            exact List.take_length _
          rw [htake]
          have hm2 : (-1 : Int) ∉ vs ++ [e] := fun h => by have := hvs2 _ h; omega
          apply ih _ (vs ++ [e]) j (by simp; omega) hvs2 hnd2 _ rvs2 _ _ _ _ hm2
          · intro x hx
            rcases (mem_pushNeighbors _ _ _ _).1 hx with h | h
            · exact hst2 x h
            · rcases hval room hrm x h.1 with h2 | h2
              · exact absurd h2 h.2.1
              · exact h2
          · intro x hx
            rcases (mem_pushNeighbors _ _ _ _).1 hx with h | h
            · exact rst2 x h
            · exact Reaches.step e x room (rst e (by simp)) he.1 hroom h.1 h.2.1
          · intro v hv room2 hroom2 c hcm hne
            rcases List.mem_append.1 hv with h | h
            · rcases hcl v h room2 hroom2 c hcm hne with h2 | h2
              · exact Or.inl (List.mem_append_left _ h2)
              · rcases List.mem_cons.1 h2 with h3 | h3
                · exact Or.inl (by rw [h3]; simp)
                · exact Or.inr ((mem_pushNeighbors _ _ _ _).2 (Or.inl h3))
            · rw [List.mem_singleton] at h
              subst h
              rw [hroom] at hroom2
              cases hroom2
              by_cases hcv : c ∈ vs ++ [v]
              · exact Or.inl hcv
              · right
                refine (mem_pushNeighbors _ _ _ _).2 (Or.inr ⟨hcm, hne, ?_⟩)
                rw [timesVisited_shape _ _ _ hne]
                exact List.count_eq_zero.2 hcv
          · rcases hb with h | h
            · exact Or.inl (List.mem_append_left _ h)
            · rcases List.mem_cons.1 h with h3 | h3
              · exact Or.inl (by rw [h3]; simp)
              · exact Or.inr ((mem_pushNeighbors _ _ _ _).2 (Or.inl h3))
          · have hp := length_pushNeighbors ((vs ++ [e]) ++ List.replicate (j + 1) (-1))
              room.connections st
            simp only [List.length_cons] at hf
            rw [hrl] at hp
            have e1 : (n - 1) * (j + 1 + 1) = (n - 1) * (j + 1) + (n - 1) := by ring
            omega


theorem dfsReachesAll_spec (roomGraph : List Room) (start : Int)
    (hG : roomGraph.length = 7) (hlen : ∀ r ∈ roomGraph, r.connections.length = 6)
    (hval : ∀ r ∈ roomGraph, ∀ c ∈ r.connections, c = -1 ∨ (0 ≤ c ∧ c < 7))
    (hs : 0 ≤ start ∧ start < 7) :
    (dfsReachesAll roomGraph 7 start = .ok 1 ∧
        ∀ x : Int, 0 ≤ x ∧ x < 7 → Reaches roomGraph start x) ∨
      (dfsReachesAll roomGraph 7 start = .ok 0 ∧
        ¬ ∀ x : Int, 0 ≤ x ∧ x < 7 → Reaches roomGraph start x) := by
  have h := dfsLoop_spec roomGraph 7 start hG hlen
    (by simpa using hval) (7 * 7 + 2) [start] [] 6 rfl (by simp) List.nodup_nil
    (by simpa using hs) (by simp) (by simpa using Reaches.start) (by simp) (by simp)
    (by simp)
  simpa [dfsReachesAll] using h


theorem minConnLoop_cases (min : Int) (l : List Room) :
    (minConnLoop min l = 1 ∧ ∀ r ∈ l, min ≤ r.numConnections) ∨ minConnLoop min l = 0 := by
  induction l with
  | nil => exact Or.inl ⟨rfl, by simp⟩
  | cons r rest ih =>
    simp only [minConnLoop]
    split_ifs with h
    · exact Or.inr rfl
    · rcases ih with ⟨h1, h2⟩ | h1
      · left
        refine ⟨h1, ?_⟩
        intro x hx
        rcases List.mem_cons.1 hx with e | e
        · rw [e]; omega
        · exact h2 x e
      · exact Or.inr h1

theorem minConnLoop_eq_one_iff (min : Int) (l : List Room) :
    minConnLoop min l = 1 ↔ ∀ r ∈ l, min ≤ r.numConnections := by
  induction l with
  | nil => simp [minConnLoop]
  | cons r rest ih =>
    simp only [minConnLoop, List.mem_cons, forall_eq_or_imp]
    split_ifs with h
    · constructor
      · intro h0
        exact absurd h0 (by decide)
      · intro h0
        omega
    · rw [ih]
      constructor
      · intro h0
        exact ⟨by omega, h0⟩
      · intro h0
        exact h0.2

theorem minConnLoop_eq_zero_iff (min : Int) (l : List Room) :
    minConnLoop min l = 0 ↔ ∃ r ∈ l, r.numConnections < min := by
  induction l with
  | nil => simp [minConnLoop]
  | cons r rest ih =>
    simp only [minConnLoop, List.mem_cons, exists_eq_or_imp]
    split_ifs with h
    · simp [h]
    · rw [ih]
      constructor
      · intro h0
        exact Or.inr h0
      · rintro (h0 | h0)
        · exact absurd h0 h
        · exact h0

theorem mem_neighbors (room : Room) (c : Int) :
    c ∈ neighbors room ↔ c ∈ room.connections ∧ c ≠ -1 := by
  simp [neighbors]

theorem room_at (roomGraph : List Room) (hG : roomGraph.length = 7) (a : Int)
    (ha : 0 ≤ a ∧ a < 7) :
    ∃ room, roomGraph.get? a.toNat = some room ∧ room ∈ roomGraph ∧
      connectionsOf roomGraph a.toNat = room.connections ∧ a.toNat < 7 ∧
      ((a.toNat : Nat) : Int) = a := by
  have hlt : a.toNat < roomGraph.length := by omega
  refine ⟨roomGraph.get ⟨a.toNat, hlt⟩, List.get?_eq_get hlt, List.get_mem _ _ _, ?_,
    by omega, by omega⟩
  unfold connectionsOf
  rw [List.getD_eq_getElem _ _ hlt]
  rfl

theorem reaches_of_three (roomGraph : List Room)
    (hG : roomGraph.length = 7)
    (hval : ∀ r ∈ roomGraph, ∀ c ∈ r.connections, c = -1 ∨ (0 ≤ c ∧ c < 7))
    (hnodup : ∀ r ∈ roomGraph, (neighbors r).Nodup)
    (hself : ∀ i : Nat, i < 7 → (i : Int) ∉ connectionsOf roomGraph i)
    (hsym : ∀ i : Nat, i < 7 → ∀ j : Nat, j < 7 →
      ((j : Int) ∈ connectionsOf roomGraph i ↔ (i : Int) ∈ connectionsOf roomGraph j))
    (hthree : ∀ r ∈ roomGraph, 3 ≤ (neighbors r).length)
    (a b : Int) (ha : 0 ≤ a ∧ a < 7) (hb : 0 ≤ b ∧ b < 7) : Reaches roomGraph a b := by
  obtain ⟨ra, hra, mra, cra, la, ea⟩ := room_at roomGraph hG a ha
  obtain ⟨rb, hrb, mrb, crb, lb, eb⟩ := room_at roomGraph hG b hb
  have selfa : a ∉ ra.connections := by
    have := hself a.toNat la
    rwa [ea, cra] at this
  have selfb : b ∉ rb.connections := by
    have := hself b.toNat lb
    rwa [eb, crb] at this
  have symab : b ∈ ra.connections ↔ a ∈ rb.connections := by
    have := hsym a.toNat la b.toNat lb
    rwa [ea, eb, cra, crb] at this
  by_cases hab : a = b
  · rw [hab]
    exact Reaches.start
  by_cases hadj : b ∈ ra.connections
  · exact Reaches.step a b ra Reaches.start ha.1 hra hadj (by omega)
  -- a room connected to both
  have hcommon : ∃ c, c ∈ neighbors ra ∧ c ∈ neighbors rb := by
    by_contra hno
    have hdis : ∀ c, c ∈ neighbors ra → c ∉ neighbors rb := fun c h1 h2 => hno ⟨c, h1, h2⟩
    have hnd : (neighbors ra ++ (neighbors rb ++ [a, b])).Nodup := by
      rw [List.nodup_append]
      refine ⟨hnodup ra mra, ?_, ?_⟩
      · rw [List.nodup_append]
        refine ⟨hnodup rb mrb, by simp [hab], ?_⟩
        intro x hx hx2
        rw [mem_neighbors] at hx
        simp only [List.mem_cons, List.mem_singleton, List.not_mem_nil, or_false] at hx2
        rcases hx2 with e | e
        · rw [e] at hx
          exact hadj (symab.2 hx.1)
        · rw [e] at hx
          exact selfb hx.1
      · intro x hx hx2
        rcases List.mem_append.1 hx2 with h | h
        · exact hdis x hx h
        · rw [mem_neighbors] at hx
          simp only [List.mem_cons, List.mem_singleton, List.not_mem_nil, or_false] at h
          rcases h with e | e
          · rw [e] at hx
            exact selfa hx.1
          · rw [e] at hx
            exact hadj hx.1
    have hsub : neighbors ra ++ (neighbors rb ++ [a, b]) ⊆
        (List.range 7).map (fun i : Nat => (i : Int)) := by
      intro x hx
      rw [mem_rooms]
      have hx' : x ∈ neighbors ra ∨ x ∈ neighbors rb ∨ x = a ∨ x = b := by
        simpa using hx
      rcases hx' with h | h | h | h
      · rw [mem_neighbors] at h
        rcases hval ra mra x h.1 with h2 | h2
        · exact absurd h2 h.2
        · simpa using h2
      · rw [mem_neighbors] at h
        rcases hval rb mrb x h.1 with h2 | h2
        · exact absurd h2 h.2
        · simpa using h2
      · rw [h]; simpa using ha
      · rw [h]; simpa using hb
    have hle := (hnd.subperm hsub).length_le
    have h3a := hthree ra mra
    have h3b := hthree rb mrb
    simp at hle
    omega
  obtain ⟨c, hca, hcb⟩ := hcommon
  rw [mem_neighbors] at hca hcb
  have hc : 0 ≤ c ∧ c < 7 := by
    rcases hval ra mra c hca.1 with h | h
    · exact absurd h hca.2
    · exact h
  obtain ⟨rc, hrc, mrc, crc, lc, ec⟩ := room_at roomGraph hG c hc
  have symcb : b ∈ rc.connections ↔ c ∈ rb.connections := by
    have := hsym c.toNat lc b.toNat lb
    rwa [ec, eb, crc, crb] at this
  exact Reaches.step c b rc (Reaches.step a c ra Reaches.start ha.1 hra hca.1 hca.2) hc.1 hrc
    (symcb.2 hcb.1) (by omega)


/-! ## The depth-first search -/

/-- C22: for seven rooms whose six connection entries each are a room number
0..6 or `-1`, and a start room 0..6, `dfsReachesAll(rooms, 7, start)` ends
within its bound with the result 1 or 0: 1 when every room can be reached
from the start room by following connection lists, 0 when some room cannot. -/
theorem dfsReachesAll_correct (roomGraph : List Room) (start : Int)
    (hG : roomGraph.length = 7) (hlen : ∀ r ∈ roomGraph, r.connections.length = 6)
    (hval : ∀ r ∈ roomGraph, ∀ c ∈ r.connections, c = -1 ∨ (0 ≤ c ∧ c < 7))
    (hs : 0 ≤ start ∧ start < 7) :
    (dfsReachesAll roomGraph 7 start = .ok 1 ∧
        ∀ x : Int, 0 ≤ x ∧ x < 7 → Reaches roomGraph start x) ∨
      (dfsReachesAll roomGraph 7 start = .ok 0 ∧
        ¬ ∀ x : Int, 0 ≤ x ∧ x < 7 → Reaches roomGraph start x) :=
  dfsReachesAll_spec roomGraph start hG hlen hval hs

theorem dfsReachesAll_correct_witness :
    (dfsReachesAll rowOfRooms 7 3 = .ok 1 ∧
        ∀ x : Int, 0 ≤ x ∧ x < 7 → Reaches rowOfRooms 3 x) ∨
      (dfsReachesAll rowOfRooms 7 3 = .ok 0 ∧
        ¬ ∀ x : Int, 0 ≤ x ∧ x < 7 → Reaches rowOfRooms 3 x) :=
  dfsReachesAll_correct rowOfRooms 3 (by decide) (by decide) (by decide) (by decide)

/-! ## The completion test of `connectRoomGraph` -/

/-- C23: for seven rooms with six connection entries each (room numbers 0..6
or `-1`), `numConnections` counting the entries that are not `-1`, no room
connected with itself, no room number twice in a list, and the lists
symmetric, the test `dfsReachesAll(rooms, 7, i) && minConnEach(rooms, 7, 3)`
has the value of `minConnEach(rooms, 7, 3)` for every start room `i`; that
value is 1 exactly when each of the seven rooms has at least 3 connections
in its list and 0 exactly when some room has fewer than 3; and when each
room has at least 3 connections, every room can be reached from every room. -/
theorem graphComplete_eq_minConnEach (roomGraph : List Room) (start : Int)
    (hG : roomGraph.length = 7) (hlen : ∀ r ∈ roomGraph, r.connections.length = 6)
    (hval : ∀ r ∈ roomGraph, ∀ c ∈ r.connections, c = -1 ∨ (0 ≤ c ∧ c < 7))
    (hnum : ∀ r ∈ roomGraph, r.numConnections = (neighbors r).length)
    (hnodup : ∀ r ∈ roomGraph, (neighbors r).Nodup)
    (hself : ∀ i : Nat, i < 7 → (i : Int) ∉ connectionsOf roomGraph i)
    (hsym : ∀ i : Nat, i < 7 → ∀ j : Nat, j < 7 →
      ((j : Int) ∈ connectionsOf roomGraph i ↔ (i : Int) ∈ connectionsOf roomGraph j))
    (hs : 0 ≤ start ∧ start < 7) :
    graphComplete roomGraph 7 start = .ok (minConnEach roomGraph 7 3) ∧
      (minConnEach roomGraph 7 3 = 1 ↔ ∀ r ∈ roomGraph, 3 ≤ (neighbors r).length) ∧
      (minConnEach roomGraph 7 3 = 0 ↔ ∃ r ∈ roomGraph, (neighbors r).length < 3) ∧
      ((∀ r ∈ roomGraph, 3 ≤ (neighbors r).length) →
        ∀ a b : Int, 0 ≤ a ∧ a < 7 → 0 ≤ b ∧ b < 7 → Reaches roomGraph a b) := by
  have htake : roomGraph.take 7 = roomGraph := by
    rw [← hG]
    exact List.take_length _
  have hspec := dfsReachesAll_spec roomGraph start hG hlen hval hs
  have hall := reaches_of_three roomGraph hG hval hnodup hself hsym
  have hone : minConnEach roomGraph 7 3 = 1 ↔ ∀ r ∈ roomGraph, 3 ≤ (neighbors r).length := by
    unfold minConnEach
    rw [htake, minConnLoop_eq_one_iff]
    constructor
    · intro h r hr
      have := h r hr
      rw [hnum r hr] at this
      omega
    · intro h r hr
      have := h r hr
      rw [hnum r hr]
      omega
  have hzero : minConnEach roomGraph 7 3 = 0 ↔ ∃ r ∈ roomGraph, (neighbors r).length < 3 := by
    unfold minConnEach
    rw [htake, minConnLoop_eq_zero_iff]
    constructor
    · rintro ⟨r, hr, h⟩
      rw [hnum r hr] at h
      exact ⟨r, hr, by omega⟩
    · rintro ⟨r, hr, h⟩
      refine ⟨r, hr, ?_⟩
      rw [hnum r hr]
      omega
  refine ⟨?_, hone, hzero, hall⟩
  unfold graphComplete
  rcases minConnLoop_cases 3 (roomGraph.take 7) with ⟨h1, -⟩ | h0
  · have h1' : minConnEach roomGraph 7 3 = 1 := h1
    rw [h1']
    rcases hspec with ⟨hd, -⟩ | ⟨-, hn⟩
    · rw [hd]
      rfl
    · exact absurd (fun x hx => hall (hone.1 h1') start x hs hx) hn
  · have h0' : minConnEach roomGraph 7 3 = 0 := h0
    rw [h0']
    rcases hspec with ⟨hd, -⟩ | ⟨hd, -⟩ <;> rw [hd] <;> rfl

theorem graphComplete_eq_minConnEach_witness :
    graphComplete ringOfRooms 7 0 = .ok (minConnEach ringOfRooms 7 3) ∧
      (minConnEach ringOfRooms 7 3 = 1 ↔ ∀ r ∈ ringOfRooms, 3 ≤ (neighbors r).length) ∧
      (minConnEach ringOfRooms 7 3 = 0 ↔ ∃ r ∈ ringOfRooms, (neighbors r).length < 3) ∧
      ((∀ r ∈ ringOfRooms, 3 ≤ (neighbors r).length) →
        ∀ a b : Int, 0 ≤ a ∧ a < 7 → 0 ≤ b ∧ b < 7 → Reaches ringOfRooms a b) :=
  graphComplete_eq_minConnEach ringOfRooms 0 (by decide) (by decide) (by decide) (by decide)
    (by decide) (by decide) (by decide) (by decide)

end Buildrooms
